import Mathlib

/-!
Verification of the aggregation-validation-merge engine of hosts_updater_rs.

Strings are modelled as `List Char` (Rust char = Unicode scalar value = Lean
Char).  Where the Rust source works on UTF-8 bytes (`is_valid_domain`), an
explicit UTF-8 encoder is used.  The managed-section codec
(`remove_auto_managed_section`, `build_auto_section`) and the pure merge core
of `write_hosts` are embedded from src/hosts.rs; the validators
(`validate_hosts_content`, `validate_hosts_line`, `is_valid_domain`,
`is_valid_ip`) from src/fetcher.rs.  `is_valid_ip` calls the Rust standard
library address parsers; those are modelled from core/src/net/parser.rs
behaviour (sequential byte parsers with the documented octet/group rules).
-/

namespace HostsUpdater

/-- Models Rust `char::is_whitespace`: the Unicode White_Space code points. -/
def rustIsWhitespace (c : Char) : Bool :=
  [0x09, 0x0A, 0x0B, 0x0C, 0x0D, 0x20, 0x85, 0xA0, 0x1680,
   0x2000, 0x2001, 0x2002, 0x2003, 0x2004, 0x2005, 0x2006, 0x2007,
   0x2008, 0x2009, 0x200A, 0x2028, 0x2029, 0x202F, 0x205F, 0x3000].contains c.toNat

/-- Models Rust `char::is_control`: Unicode category Cc, i.e. U+0000..U+001F
and U+007F..U+009F. -/
def rustIsControl (c : Char) : Bool :=
  decide (c.toNat < 0x20 ∨ (0x7F ≤ c.toNat ∧ c.toNat ≤ 0x9F))

/-- Models Rust `str::trim_start`. -/
def trimStart (s : List Char) : List Char := s.dropWhile rustIsWhitespace

/-- Models Rust `str::trim_end`. -/
def trimEnd (s : List Char) : List Char :=
  (s.reverse.dropWhile rustIsWhitespace).reverse

/-- Models Rust `str::trim`. -/
def rustTrim (s : List Char) : List Char := trimStart (trimEnd s)

/-- Models Rust `str::split_inclusive('\n')`: segments of the string, each
ending with the newline that terminated it (the last segment may lack it). -/
def splitInclusiveNl : List Char → List (List Char)
  | [] => []
  | c :: cs =>
    match splitInclusiveNl cs with
    | [] => [[c]]
    | l :: ls => if c = '\n' then [c] :: l :: ls else (c :: l) :: ls

/-- One line from a `split_inclusive('\n')` segment: the terminating newline
is removed, and a carriage return immediately before it is removed too. -/
def lineOfSeg (seg : List Char) : List Char :=
  if seg.getLast? = some '\n' then
    if seg.dropLast.getLast? = some '\r' then seg.dropLast.dropLast
    else seg.dropLast
  else seg

/-- Models Rust `str::lines`. -/
def rustLines (s : List Char) : List (List Char) :=
  (splitInclusiveNl s).map lineOfSeg

/-- Join a list of lines, appending a newline after each (the push pattern of
`remove_auto_managed_section`). -/
def joinNl (ls : List (List Char)) : List Char :=
  ls.foldr (fun l acc => l ++ '\n' :: acc) []

/-- True when the string contains no carriage return immediately followed by
a line feed. -/
def crlfFree : List Char → Bool
  | [] => true
  | [_] => true
  | c :: d :: rest => !(c == '\r' && d == '\n') && crlfFree (d :: rest)

/-- A line with a trailing carriage return removed (the `\r` handling of
Rust `str::lines`). -/
def stripCR (l : List Char) : List Char :=
  if l.getLast? = some '\r' then l.dropLast else l

/-- Start marker constant from src/hosts.rs. -/
def START_MARKER : List Char := "# >>> hosts_updater_rs START >>>".data

/-- End marker constant from src/hosts.rs. -/
def END_MARKER : List Char := "# <<< hosts_updater_rs END <<<".data

/-- The fixed ownership-disclaimer comment emitted by `build_auto_section`. -/
def disclaimerLine : List Char :=
  "# 此区域由 hosts_updater_rs 自动管理，请勿手动修改".data

/-- The last-updated comment label emitted by `build_auto_section`. -/
def updatedLabel : List Char := "# 最后更新: ".data

/-- The per-source provenance comment label emitted by `build_auto_section`. -/
def sourceLabel : List Char := "# Source: ".data

/-- The line-level state machine of `remove_auto_managed_section`
(src/hosts.rs lines 160-176): lines whose trim equals a marker are dropped
and flip the in-section state; other lines are kept exactly when the state
is outside. -/
def keptLines : Bool → List (List Char) → List (List Char)
  | _, [] => []
  | inAuto, l :: ls =>
    if rustTrim l = START_MARKER then keptLines true ls
    else if rustTrim l = END_MARKER then keptLines false ls
    else if inAuto then keptLines true ls
    else l :: keptLines false ls

/-- Embeds `remove_auto_managed_section` (src/hosts.rs lines 155-184): if no
line trims to the start marker the content is returned unchanged, otherwise
the kept lines are joined with newlines and the result is trim_end-ed. -/
def remove_auto_managed_section (content : List Char) : List Char :=
  let ls := rustLines content
  if ls.any (fun l => rustTrim l == START_MARKER) then
    trimEnd (joinNl (keptLines false ls))
  else content

/-- One rendered source block of `build_auto_section`. -/
def docBlock (p : List Char × List Char) : List Char :=
  sourceLabel ++ p.1 ++ '\n' :: (rustTrim p.2 ++ '\n' :: '\n' :: [])

/-- Embeds `build_auto_section` (src/hosts.rs lines 187-210): header pushes,
a fold over the sources in order, then the end marker. -/
def build_auto_section (sources : List (List Char × List Char))
    (last_update : List Char) : List Char :=
  let header := START_MARKER ++ '\n' ::
    (disclaimerLine ++ '\n' ::
      (updatedLabel ++ last_update ++ '\n' :: '\n' :: []))
  (sources.foldl (fun acc p => acc ++ docBlock p) header) ++ END_MARKER ++ ['\n']

/-- Embeds the pure merge core of `write_hosts` (src/hosts.rs lines 129-142):
strip the old managed region, build the new one, and combine. -/
def merge_hosts (existing : List Char) (sources : List (List Char × List Char))
    (last_update : List Char) : List Char :=
  let cleaned := remove_auto_managed_section existing
  let auto_section := build_auto_section sources last_update
  if rustTrim cleaned = [] then auto_section
  else trimEnd cleaned ++ '\n' :: '\n' :: auto_section

/-- Models Rust `str::split(sep)` at the char level: always at least one
part; adjacent separators yield empty parts. -/
def splitOnChar (sep : Char) : List Char → List (List Char)
  | [] => [[]]
  | c :: cs =>
    if c = sep then [] :: splitOnChar sep cs
    else
      match splitOnChar sep cs with
      | [] => [[c]]
      | p :: ps => (c :: p) :: ps

/-- Accumulator pass for `split_whitespace`: `acc` holds the reversed
characters of the token currently being read. -/
def splitWsAux : List Char → List Char → List (List Char)
  | [], acc => if acc.isEmpty then [] else [acc.reverse]
  | c :: cs, acc =>
    if rustIsWhitespace c then
      if acc.isEmpty then splitWsAux cs []
      else acc.reverse :: splitWsAux cs []
    else splitWsAux cs (c :: acc)

/-- Models Rust `str::split_whitespace`: maximal runs of non-whitespace. -/
def splitWs (s : List Char) : List (List Char) := splitWsAux s []

/-- The UTF-8 encoding of one Unicode scalar value, as byte values. -/
def utf8Bytes (c : Char) : List Nat :=
  let n := c.toNat
  if n < 0x80 then [n]
  else if n < 0x800 then [0xC0 + n / 64, 0x80 + n % 64]
  else if n < 0x10000 then [0xE0 + n / 4096, 0x80 + n / 64 % 64, 0x80 + n % 64]
  else [0xF0 + n / 262144, 0x80 + n / 4096 % 64, 0x80 + n / 64 % 64, 0x80 + n % 64]

/-- The UTF-8 bytes of a string (Rust `str::as_bytes` / byte length). -/
def strBytes (s : List Char) : List Nat := (s.map utf8Bytes).flatten

/-- Models Rust `(byte as char).is_alphanumeric()` for byte values 0..=255:
Unicode Alphabetic or numeric characters in the Latin-1 range. -/
def latin1Alnum (b : Nat) : Bool :=
  decide ((0x30 ≤ b ∧ b ≤ 0x39) ∨ (0x41 ≤ b ∧ b ≤ 0x5A) ∨ (0x61 ≤ b ∧ b ≤ 0x7A) ∨
    b = 0xAA ∨ b = 0xB2 ∨ b = 0xB3 ∨ b = 0xB5 ∨ b = 0xB9 ∨ b = 0xBA ∨
    b = 0xBC ∨ b = 0xBD ∨ b = 0xBE ∨
    (0xC0 ≤ b ∧ b ≤ 0xD6) ∨ (0xD8 ≤ b ∧ b ≤ 0xF6) ∨ (0xF8 ≤ b ∧ b ≤ 0xFF))

/-- The per-label checks of `is_valid_domain` (src/fetcher.rs lines 132-153):
byte length 1 to 63, first and last byte alphanumeric when cast to a char,
every byte alphanumeric or the hyphen byte 45. -/
def domainLabelOk (label : List Char) : Bool :=
  match strBytes label with
  | [] => false
  | b :: bs =>
    decide ((b :: bs).length ≤ 63) && latin1Alnum b &&
      latin1Alnum ((b :: bs).getLastD 0) &&
      (b :: bs).all (fun x => latin1Alnum x || decide (x = 45))

/-- Embeds `is_valid_domain` (src/fetcher.rs lines 119-157).  The Rust code
works on the UTF-8 bytes of the domain: byte length bounds, and each byte
cast to a char and tested with `is_alphanumeric`. -/
def is_valid_domain (domain : List Char) : Bool :=
  if domain = [] then false
  else if (strBytes domain).length > 253 then false
  else (splitOnChar '.' domain).all domainLabelOk

/-- ASCII decimal digit (what Rust `to_digit(10)` accepts). -/
def isAsciiDigit (c : Char) : Bool := decide (48 ≤ c.toNat ∧ c.toNat ≤ 57)

/-- ASCII hexadecimal digit (what Rust `to_digit(16)` accepts). -/
def isHexDigitRust (c : Char) : Bool :=
  decide ((48 ≤ c.toNat ∧ c.toNat ≤ 57) ∨ (97 ≤ c.toNat ∧ c.toNat ≤ 102) ∨
    (65 ≤ c.toNat ∧ c.toNat ≤ 70))

/-- Numeric value of an ASCII digit. -/
def digitVal (c : Char) : Nat := c.toNat - 48

/-- Value of a decimal digit string. -/
def digitsVal (ds : List Char) : Nat := ds.foldl (fun a c => a * 10 + digitVal c) 0

/-- Consume one next character when it equals `c`. -/
def expectChar (c : Char) : List Char → Option (List Char)
  | x :: xs => if x = c then some xs else none
  | [] => none

/-- Models `read_number(10, Some(3), false)` at `u8` from the Rust core net
parser: reads all leading decimal digits; fails on zero digits, more than
three digits, a leading zero with more than one digit, or a value over 255. -/
def readOctet (s : List Char) : Option (List Char) :=
  let ds := s.takeWhile isAsciiDigit
  if ds = [] then none
  else if 3 < ds.length then none
  else if ds.head? = some '0' ∧ 1 < ds.length then none
  else if 255 < digitsVal ds then none
  else some (s.dropWhile isAsciiDigit)

/-- Models `read_ipv4_addr` from the Rust core net parser: four octets
separated by dots, consumed from the front. -/
def readIpv4 (s : List Char) : Option (List Char) :=
  match readOctet s with
  | none => none
  | some s1 =>
    match expectChar '.' s1 with
    | none => none
    | some s2 =>
      match readOctet s2 with
      | none => none
      | some s3 =>
        match expectChar '.' s3 with
        | none => none
        | some s4 =>
          match readOctet s4 with
          | none => none
          | some s5 =>
            match expectChar '.' s5 with
            | none => none
            | some s6 => readOctet s6

/-- Models `read_number(16, Some(4), true)` at `u16`: one to four leading
hexadecimal digits (four hex digits never overflow a u16). -/
def readHexGroup (s : List Char) : Option (List Char) :=
  let ds := s.takeWhile isHexDigitRust
  if ds = [] then none
  else if 4 < ds.length then none
  else some (s.dropWhile isHexDigitRust)

/-- Models `read_separator(':', i, inner)`: a colon is required before every
group except the one at index 0. -/
def readSep (i : Nat) (inner : List Char → Option (List Char))
    (s : List Char) : Option (List Char) :=
  if i = 0 then inner s
  else match expectChar ':' s with
    | some s2 => inner s2
    | none => none

/-- Models `read_groups` from the Rust core net parser: returns how many
16-bit groups were read, whether a trailing embedded IPv4 address was read
(which counts as two groups), and the remaining input.  `remaining` is the
number of group slots left, `i` the current group index. -/
def readGroupsAux : Nat → Nat → List Char → Nat × Bool × List Char
  | 0, _, s => (0, false, s)
  | remaining + 1, i, s =>
    match (if 1 ≤ remaining then readSep i readIpv4 s else none) with
    | some s2 => (2, true, s2)
    | none =>
      match readSep i readHexGroup s with
      | some s2 =>
        let r := readGroupsAux remaining (i + 1) s2
        (r.1 + 1, r.2.1, r.2.2)
      | none => (0, false, s)

/-- Models `read_ipv6_addr` from the Rust core net parser: up to eight
groups; when fewer than eight, a literal `::` must follow, then the tail
groups. -/
def readIpv6 (s : List Char) : Option (List Char) :=
  let r := readGroupsAux 8 0 s
  if r.1 = 8 then some r.2.2
  else if r.2.1 then none
  else
    match expectChar ':' r.2.2 with
    | none => none
    | some s2 =>
      match expectChar ':' s2 with
      | none => none
      | some s3 => some (readGroupsAux (8 - (r.1 + 1)) 0 s3).2.2

/-- Models `ip.parse::<Ipv4Addr>().is_ok()`: the parser must consume the
whole string. -/
def parsesIpv4 (s : List Char) : Bool := readIpv4 s == some []

/-- Models `ip.parse::<Ipv6Addr>().is_ok()`: the parser must consume the
whole string. -/
def parsesIpv6 (s : List Char) : Bool := readIpv6 s == some []

/-- Embeds `is_valid_ip` (src/fetcher.rs lines 160-178): IPv4, then the
bracketed IPv6 form, then plain IPv6. -/
def is_valid_ip (ip : List Char) : Bool :=
  if parsesIpv4 ip then true
  else if ip.head? = some '[' ∧ ip.getLast? = some ']' then
    parsesIpv6 ((ip.drop 1).dropLast)
  else parsesIpv6 ip

/-- The validation error taxonomy of src/fetcher.rs (anyhow messages,
modelled structurally): each error carries the data interpolated into the
corresponding message. -/
inductive HostsError where
  | emptyDocument (url : List Char)
  | illegalControlCharacter (pos : Nat) (url : List Char)
  | missingField (lineNum : Nat) (line : List Char) (url : List Char)
  | invalidIp (lineNum : Nat) (ip : List Char) (url : List Char)
  | invalidDomain (lineNum : Nat) (domain : List Char) (url : List Char)
  deriving DecidableEq

instance : DecidableEq (Except HostsError Unit)
  | .ok (), .ok () => isTrue rfl
  | .ok (), .error _ => isFalse (fun h => Except.noConfusion h)
  | .error _, .ok () => isFalse (fun h => Except.noConfusion h)
  | .error e, .error f =>
    if h : e = f then isTrue (by rw [h])
    else isFalse (fun hh => h (Except.error.inj hh))

/-- The 1-based line number carried by a line-level validation error. -/
def errLineNum : HostsError → Option Nat
  | .missingField n _ _ => some n
  | .invalidIp n _ _ => some n
  | .invalidDomain n _ _ => some n
  | _ => none

/-- The origin identifier carried by every validation error. -/
def errUrl : HostsError → List Char
  | .emptyDocument u => u
  | .illegalControlCharacter _ u => u
  | .missingField _ _ u => u
  | .invalidIp _ _ u => u
  | .invalidDomain _ _ u => u

/-- Embeds `validate_hosts_line` (src/fetcher.rs lines 79-116): split on
whitespace, need at least two tokens, the first must be a valid address,
every other a valid domain (first offender reported). -/
def validate_hosts_line (line : List Char) (lineNum : Nat)
    (url : List Char) : Except HostsError Unit :=
  match splitWs line with
  | [] => .error (.missingField lineNum line url)
  | [_] => .error (.missingField lineNum line url)
  | ip :: domains =>
    if !is_valid_ip ip then .error (.invalidIp lineNum ip url)
    else
      match domains.find? (fun d => !is_valid_domain d) with
      | some d => .error (.invalidDomain lineNum d url)
      | none => .ok ()

/-- A control character other than newline, carriage return, or tab. -/
def badCtrl (c : Char) : Bool :=
  rustIsControl c && !(c == '\n') && !(c == '\r') && !(c == '\t')

/-- Index of the first illegal control character, counting from `i`. -/
def firstIllegalChar : List Char → Nat → Option Nat
  | [], _ => none
  | c :: cs, i => if badCtrl c then some i else firstIllegalChar cs (i + 1)

/-- The line loop of `validate_hosts_content` (src/fetcher.rs lines 61-73):
`n` is the 0-based index of the first line of `ls`; trimmed blank and
comment lines are skipped, the first failing line aborts. -/
def validateLines (url : List Char) : List (List Char) → Nat → Except HostsError Unit
  | [], _ => .ok ()
  | l :: ls, n =>
    if rustTrim l = [] then validateLines url ls (n + 1)
    else if (rustTrim l).head? = some '#' then validateLines url ls (n + 1)
    else
      match validate_hosts_line (rustTrim l) (n + 1) url with
      | .ok _ => validateLines url ls (n + 1)
      | .error e => .error e

/-- Embeds `validate_hosts_content` (src/fetcher.rs lines 44-76). -/
def validate_hosts_content (content url : List Char) : Except HostsError Unit :=
  if rustTrim content = [] then .error (.emptyDocument url)
  else
    match firstIllegalChar content 0 with
    | some i => .error (.illegalControlCharacter i url)
    | none => validateLines url (rustLines content) 0

/-- Spec-side definition (from the words of claim C7): ASCII alphanumeric. -/
def asciiAlnum (c : Char) : Bool :=
  decide ((48 ≤ c.toNat ∧ c.toNat ≤ 57) ∨ (97 ≤ c.toNat ∧ c.toNat ≤ 122) ∨
    (65 ≤ c.toNat ∧ c.toNat ≤ 90))

/-- Spec-side definition (from the words of claim C7): one label matching
[a-zA-Z0-9]([a-zA-Z0-9-]*[a-zA-Z0-9])? of length 1 to 63. -/
def specLabelOk (l : List Char) : Bool :=
  match l with
  | [] => false
  | c :: cs =>
    decide ((c :: cs).length ≤ 63) && asciiAlnum c &&
      asciiAlnum ((c :: cs).getLastD ' ') &&
      (c :: cs).all (fun x => asciiAlnum x || decide (x = '-'))

/-- Spec-side definition (from the words of claim C7): the Name grammar,
labels joined by dots, total length at most 253. -/
def specDomainGrammar (d : List Char) : Bool :=
  decide (d.length ≤ 253) && (splitOnChar '.' d).all specLabelOk

/-! ### Trimming lemmas -/

theorem dropWhile_dropWhile_eq (p : Char → Bool) (l : List Char) :
    (l.dropWhile p).dropWhile p = l.dropWhile p := by
  induction l with
  | nil => rfl
  | cons a l ih =>
    cases h : p a with
    | true => simpa [List.dropWhile_cons, h] using ih
    | false => simp [List.dropWhile_cons, h]

theorem trimEnd_trimEnd (s : List Char) : trimEnd (trimEnd s) = trimEnd s := by
  unfold trimEnd
  rw [List.reverse_reverse, dropWhile_dropWhile_eq]

theorem trimEnd_nil : trimEnd [] = [] := rfl

theorem rustTrim_trimEnd (s : List Char) : rustTrim (trimEnd s) = rustTrim s := by
  unfold rustTrim
  rw [trimEnd_trimEnd]

theorem trimEnd_append_ws (a w : List Char)
    (h : ∀ c ∈ w, rustIsWhitespace c = true) : trimEnd (a ++ w) = trimEnd a := by
  unfold trimEnd
  rw [List.reverse_append, List.dropWhile_append]
  have hw : w.reverse.dropWhile rustIsWhitespace = [] :=
    List.dropWhile_eq_nil_iff.mpr (fun x hx => h x (List.mem_reverse.mp hx))
  simp [hw]

theorem trimEnd_append_of_ne_nil (a b : List Char) (h : trimEnd b ≠ []) :
    trimEnd (a ++ b) = a ++ trimEnd b := by
  have hb : ¬ (b.reverse.dropWhile rustIsWhitespace).isEmpty = true := by
    intro hh
    apply h
    unfold trimEnd
    rw [List.isEmpty_iff] at hh
    simp [hh]
  have hb2 : (b.reverse.dropWhile rustIsWhitespace).isEmpty = false := by
    simpa using hb
  unfold trimEnd
  rw [List.reverse_append, List.dropWhile_append]
  simp [hb2]

theorem mem_of_mem_trimEnd {c : Char} {s : List Char} (h : c ∈ trimEnd s) : c ∈ s := by
  unfold trimEnd at h
  rw [List.mem_reverse] at h
  have := (List.dropWhile_sublist (l := s.reverse) rustIsWhitespace).subset h
  exact List.mem_reverse.mp this

theorem head?_dropWhile_not (p : Char → Bool) :
    ∀ (l : List Char) (c : Char), (l.dropWhile p).head? = some c → p c = false := by
  intro l
  induction l with
  | nil => intro c h; simp at h
  | cons a l ih =>
    intro c h
    cases hp : p a with
    | true => exact ih c (by simpa [List.dropWhile_cons, hp] using h)
    | false =>
      simp [List.dropWhile_cons, hp] at h
      rw [← h]
      exact hp

theorem trimEnd_getLast?_not_ws {s : List Char} {c : Char}
    (h : (trimEnd s).getLast? = some c) : rustIsWhitespace c = false := by
  unfold trimEnd at h
  rw [List.getLast?_reverse] at h
  exact head?_dropWhile_not _ _ _ h

theorem trimEnd_getLast?_ne_nl (s : List Char) : (trimEnd s).getLast? ≠ some '\n' := by
  intro h
  have := trimEnd_getLast?_not_ws h
  simp [rustIsWhitespace] at this

theorem trimEnd_getLast?_ne_cr (s : List Char) : (trimEnd s).getLast? ≠ some '\r' := by
  intro h
  have := trimEnd_getLast?_not_ws h
  simp [rustIsWhitespace] at this

theorem trimEnd_eq_nil_iff (s : List Char) :
    trimEnd s = [] ↔ ∀ c ∈ s, rustIsWhitespace c = true := by
  unfold trimEnd
  rw [List.reverse_eq_nil_iff, List.dropWhile_eq_nil_iff]
  constructor
  · intro h c hc
    exact h c (List.mem_reverse.mpr hc)
  · intro h c hc
    exact h c (List.mem_reverse.mp hc)

/-! ### Line-splitting lemmas -/

theorem splitInclusiveNl_cons (c : Char) (cs : List Char) :
    splitInclusiveNl (c :: cs) =
      match splitInclusiveNl cs with
      | [] => [[c]]
      | l :: ls => if c = '\n' then [c] :: l :: ls else (c :: l) :: ls := rfl

theorem splitInclusiveNl_cons_nil {cs : List Char} (c : Char)
    (h : splitInclusiveNl cs = []) : splitInclusiveNl (c :: cs) = [[c]] := by
  rw [splitInclusiveNl_cons, h]

theorem splitInclusiveNl_cons_cons {cs l : List Char} {ls : List (List Char)}
    (c : Char) (h : splitInclusiveNl cs = l :: ls) :
    splitInclusiveNl (c :: cs) =
      if c = '\n' then [c] :: l :: ls else (c :: l) :: ls := by
  rw [splitInclusiveNl_cons, h]

theorem splitInclusiveNl_ne_nil {s : List Char} (h : s ≠ []) :
    splitInclusiveNl s ≠ [] := by
  cases s with
  | nil => exact absurd rfl h
  | cons c cs =>
    rw [splitInclusiveNl_cons]
    cases splitInclusiveNl cs with
    | nil => simp
    | cons l ls => by_cases hc : c = '\n' <;> simp [hc]

theorem splitInclusiveNl_eq_nil_iff {s : List Char} :
    splitInclusiveNl s = [] ↔ s = [] := by
  constructor
  · intro h
    by_contra hne
    exact splitInclusiveNl_ne_nil hne h
  · intro h
    rw [h]
    rfl

theorem splitInclusiveNl_append_nl (a b : List Char) :
    splitInclusiveNl (a ++ '\n' :: b) =
      splitInclusiveNl (a ++ ['\n']) ++ splitInclusiveNl b := by
  induction a with
  | nil =>
    simp only [List.nil_append]
    rw [splitInclusiveNl_cons]
    cases hb : splitInclusiveNl b with
    | nil => simp [splitInclusiveNl]
    | cons l ls => simp [splitInclusiveNl]
  | cons c a ih =>
    have hne : splitInclusiveNl (a ++ ['\n']) ≠ [] :=
      splitInclusiveNl_ne_nil (by simp)
    cases ha : splitInclusiveNl (a ++ ['\n']) with
    | nil => exact absurd ha hne
    | cons l ls =>
      have lhs : splitInclusiveNl ((c :: a) ++ '\n' :: b) =
          match splitInclusiveNl (a ++ '\n' :: b) with
          | [] => [[c]]
          | l :: ls => if c = '\n' then [c] :: l :: ls else (c :: l) :: ls := rfl
      rw [lhs, ih, ha]
      have rhs : splitInclusiveNl ((c :: a) ++ ['\n']) =
          match splitInclusiveNl (a ++ ['\n']) with
          | [] => [[c]]
          | l :: ls => if c = '\n' then [c] :: l :: ls else (c :: l) :: ls := rfl
      rw [rhs, ha]
      by_cases hc : c = '\n' <;> simp [hc]

theorem splitInclusiveNl_flatten (s : List Char) :
    (splitInclusiveNl s).flatten = s := by
  induction s with
  | nil => rfl
  | cons c cs ih =>
    rw [splitInclusiveNl_cons]
    cases h : splitInclusiveNl cs with
    | nil =>
      have hcs : cs = [] := splitInclusiveNl_eq_nil_iff.mp h
      simp [hcs]
    | cons l ls =>
      rw [h] at ih
      by_cases hc : c = '\n'
      · simp [hc, List.flatten_cons] at ih ⊢
        exact ih
      · simp only [if_neg hc, List.flatten_cons, List.cons_append] at ih ⊢
        rw [← List.flatten_cons]
        simpa [List.flatten_cons] using ih

theorem splitInclusiveNl_seg_shape {s : List Char} :
    ∀ seg ∈ splitInclusiveNl s, seg ≠ [] ∧ '\n' ∉ seg.dropLast := by
  induction s with
  | nil => intro seg h; simp [splitInclusiveNl] at h
  | cons c cs ih =>
    intro seg hseg
    cases h : splitInclusiveNl cs with
    | nil =>
      rw [splitInclusiveNl_cons_nil c h] at hseg
      simp at hseg
      subst hseg
      simp
    | cons l ls =>
      rw [splitInclusiveNl_cons_cons c h] at hseg
      rw [h] at ih
      by_cases hc : c = '\n'
      · rw [if_pos hc] at hseg
        rcases List.mem_cons.mp hseg with h1 | h2
        · subst h1; simp
        · exact ih seg h2
      · rw [if_neg hc] at hseg
        rcases List.mem_cons.mp hseg with h1 | h2
        · subst h1
          have hl := ih l (by simp)
          refine ⟨by simp, ?_⟩
          cases l with
          | nil => exact absurd rfl hl.1
          | cons x xs =>
            rw [List.dropLast_cons₂]
            intro hmem
            rcases List.mem_cons.mp hmem with h3 | h3
            · exact hc h3.symm
            · exact hl.2 h3
        · exact ih seg (List.mem_cons_of_mem l h2)

theorem lineOfSeg_subset {seg : List Char} {c : Char} (h : c ∈ lineOfSeg seg) :
    c ∈ seg := by
  unfold lineOfSeg at h
  split at h
  · split at h
    · exact (List.dropLast_sublist _).subset ((List.dropLast_sublist _).subset h)
    · exact (List.dropLast_sublist _).subset h
  · exact h

theorem nl_not_mem_lineOfSeg {seg : List Char}
    (h1 : seg ≠ []) (h2 : '\n' ∉ seg.dropLast) : '\n' ∉ lineOfSeg seg := by
  unfold lineOfSeg
  split
  · split
    · intro hmem
      exact h2 ((List.dropLast_sublist _).subset hmem)
    · exact h2
  · rename_i hlast
    intro hmem
    have hdecomp := List.dropLast_append_getLast h1
    rw [← hdecomp] at hmem
    rcases List.mem_append.mp hmem with h3 | h3
    · exact h2 h3
    · apply hlast
      rw [List.getLast?_eq_getLast seg h1]
      simp at h3
      rw [h3]

theorem nl_not_mem_of_mem_rustLines {s l : List Char} (h : l ∈ rustLines s) :
    '\n' ∉ l := by
  unfold rustLines at h
  rcases List.mem_map.mp h with ⟨seg, hseg, rfl⟩
  have := splitInclusiveNl_seg_shape seg hseg
  exact nl_not_mem_lineOfSeg this.1 this.2

theorem rustLines_append_nl (a b : List Char) :
    rustLines (a ++ '\n' :: b) = rustLines (a ++ ['\n']) ++ rustLines b := by
  unfold rustLines
  rw [splitInclusiveNl_append_nl, List.map_append]

theorem splitInclusiveNl_single_nl {a : List Char} (h : '\n' ∉ a) :
    splitInclusiveNl (a ++ ['\n']) = [a ++ ['\n']] := by
  induction a with
  | nil => rfl
  | cons c a ih =>
    have hc : c ≠ '\n' := fun hh => h (by simp [hh])
    have ha : '\n' ∉ a := fun hh => h (by simp [hh])
    rw [List.cons_append, splitInclusiveNl_cons, ih ha]
    simp [hc]

theorem rustLines_single_nl {a : List Char} (h : '\n' ∉ a) :
    rustLines (a ++ ['\n']) = [stripCR a] := by
  unfold rustLines
  rw [splitInclusiveNl_single_nl h]
  unfold lineOfSeg stripCR
  simp [List.getLast?_concat, List.dropLast_concat]

theorem rustLines_single_nl' {a : List Char} (h : '\n' ∉ a)
    (h2 : a.getLast? ≠ some '\r') : rustLines (a ++ ['\n']) = [a] := by
  rw [rustLines_single_nl h]
  unfold stripCR
  simp [h2]

theorem splitInclusiveNl_no_nl {r : List Char} (h : '\n' ∉ r) (hne : r ≠ []) :
    splitInclusiveNl r = [r] := by
  induction r with
  | nil => exact absurd rfl hne
  | cons c cs ih =>
    have hc : c ≠ '\n' := fun hh => h (by simp [hh])
    have hcs : '\n' ∉ cs := fun hh => h (by simp [hh])
    rw [splitInclusiveNl_cons]
    cases hsi : splitInclusiveNl cs with
    | nil => simp [splitInclusiveNl_eq_nil_iff.mp hsi]
    | cons l ls =>
      have hcsne : cs ≠ [] := by
        intro hh
        rw [hh] at hsi
        simp [splitInclusiveNl] at hsi
      rw [ih hcs hcsne] at hsi
      rw [(List.cons.injEq _ _ _ _).mp hsi |>.1, (List.cons.injEq _ _ _ _).mp hsi |>.2]
      simp [hc]

theorem eq_dropLast_append_of_getLast? {l : List Char} {x : Char}
    (h : l.getLast? = some x) : l = l.dropLast ++ [x] := by
  have hne : l ≠ [] := by
    intro hh
    rw [hh] at h
    simp at h
  rw [List.getLast?_eq_getLast l hne] at h
  have h3 : l.getLast hne = x := Option.some.inj h
  rw [← h3]
  exact (List.dropLast_append_getLast hne).symm

theorem rustLines_no_nl {r : List Char} (h : '\n' ∉ r) (hne : r ≠ []) :
    rustLines r = [r] := by
  unfold rustLines
  rw [splitInclusiveNl_no_nl h hne]
  unfold lineOfSeg
  have hlast : r.getLast? ≠ some '\n' := by
    intro hh
    apply h
    rw [eq_dropLast_append_of_getLast? hh]
    simp
  simp [hlast]

theorem rustLines_append_complete {a : List Char} (b : List Char)
    (h : a.getLast? = some '\n') :
    rustLines (a ++ b) = rustLines a ++ rustLines b := by
  have hd := eq_dropLast_append_of_getLast? h
  calc rustLines (a ++ b) = rustLines (a.dropLast ++ '\n' :: b) := by
        rw [hd]; simp
    _ = rustLines (a.dropLast ++ ['\n']) ++ rustLines b := rustLines_append_nl _ _
    _ = rustLines a ++ rustLines b := by rw [← hd]

/-! ### Joining lines back -/

theorem joinNl_cons (l : List Char) (ls : List (List Char)) :
    joinNl (l :: ls) = l ++ '\n' :: joinNl ls := rfl

theorem joinNl_append (A B : List (List Char)) :
    joinNl (A ++ B) = joinNl A ++ joinNl B := by
  induction A with
  | nil => rfl
  | cons l A ih => simp [joinNl_cons, ih]

theorem crlfFree_tail {c : Char} {cs : List Char} (h : crlfFree (c :: cs) = true) :
    crlfFree cs = true := by
  cases cs with
  | nil => rfl
  | cons d ds =>
    simp only [crlfFree, Bool.and_eq_true] at h
    exact h.2

theorem lineOfSeg_cons {c : Char} {l : List Char} (hl : l ≠ [])
    (hsafe : ¬(c = '\r' ∧ l = ['\n'])) :
    lineOfSeg (c :: l) = c :: lineOfSeg l := by
  unfold lineOfSeg
  have hlast : (c :: l).getLast? = l.getLast? := by
    cases l with
    | nil => exact absurd rfl hl
    | cons x xs => exact List.getLast?_cons_cons
  rw [hlast]
  by_cases hnl : l.getLast? = some '\n'
  · rw [if_pos hnl, if_pos hnl]
    have hdl : (c :: l).dropLast = c :: l.dropLast := by
      cases l with
      | nil => exact absurd rfl hl
      | cons x xs => exact List.dropLast_cons₂
    rw [hdl]
    by_cases hdle : l.dropLast = []
    · have hlsingle : l = ['\n'] := by
        have hh := eq_dropLast_append_of_getLast? hnl
        rw [hdle] at hh
        simpa using hh
      have hcr : c ≠ '\r' := fun hcc => hsafe ⟨hcc, hlsingle⟩
      rw [hdle]
      simp [hcr]
    · have hdlc : (c :: l.dropLast).getLast? = l.dropLast.getLast? := by
        cases hld : l.dropLast with
        | nil => exact absurd hld hdle
        | cons y ys => rw [List.getLast?_cons_cons]
      rw [hdlc]
      by_cases hr : l.dropLast.getLast? = some '\r'
      · rw [if_pos hr, if_pos hr]
        cases hld : l.dropLast with
        | nil => exact absurd hld hdle
        | cons y ys => exact List.dropLast_cons₂
      · rw [if_neg hr, if_neg hr]
  · rw [if_neg hnl, if_neg hnl]

theorem joinNl_rustLines {s : List Char} (h : crlfFree s = true) :
    joinNl (rustLines s) =
      if s.getLast? = some '\n' then s
      else if s = [] then [] else s ++ ['\n'] := by
  induction s with
  | nil => rfl
  | cons c cs ih =>
    have hcs : crlfFree cs = true := crlfFree_tail h
    cases h1 : splitInclusiveNl cs with
    | nil =>
      have hcsnil : cs = [] := splitInclusiveNl_eq_nil_iff.mp h1
      subst hcsnil
      by_cases hc : c = '\n'
      · subst hc
        rfl
      · have hnm : '\n' ∉ [c] := by
          intro hmem
          rcases List.mem_singleton.mp hmem with h3
          exact hc h3.symm
        rw [rustLines_no_nl hnm (by simp)]
        simp [joinNl_cons, joinNl, hc]
    | cons l ls =>
      have hcsne : cs ≠ [] := by
        intro hh
        rw [hh] at h1
        simp [splitInclusiveNl] at h1
      have hg : (c :: cs).getLast? = cs.getLast? := by
        cases cs with
        | nil => exact absurd rfl hcsne
        | cons x xs => exact List.getLast?_cons_cons
      by_cases hc : c = '\n'
      · subst hc
        have hr : rustLines ('\n' :: cs) = [] :: rustLines cs := by
          have h2 := rustLines_append_nl [] cs
          simp only [List.nil_append] at h2
          rw [h2]
          rfl
        rw [hr, joinNl_cons, ih hcs]
        simp only [hg]
        by_cases h2 : cs.getLast? = some '\n' <;> simp [h2, hcsne]
      · have hlne : l ≠ [] :=
          (splitInclusiveNl_seg_shape l (by rw [h1]; simp)).1
        have hflat : l ++ ls.flatten = cs := by
          have h2 := splitInclusiveNl_flatten cs
          rw [h1] at h2
          simpa [List.flatten_cons] using h2
        have hsafe : ¬(c = '\r' ∧ l = ['\n']) := by
          rintro ⟨hcr, hln⟩
          subst hcr
          rw [hln] at hflat
          rw [← hflat] at h
          simp [crlfFree] at h
        have hsi : splitInclusiveNl (c :: cs) = (c :: l) :: ls := by
          rw [splitInclusiveNl_cons_cons c h1, if_neg hc]
        have hr : rustLines (c :: cs) = lineOfSeg (c :: l) :: ls.map lineOfSeg := by
          unfold rustLines
          rw [hsi]
          rfl
        have hrcs : rustLines cs = lineOfSeg l :: ls.map lineOfSeg := by
          unfold rustLines
          rw [h1]
          rfl
        have hihcs := ih hcs
        rw [hrcs, joinNl_cons] at hihcs
        rw [hr, lineOfSeg_cons hlne hsafe, joinNl_cons]
        simp only [hg]
        by_cases h2 : cs.getLast? = some '\n'
        · rw [if_pos h2] at hihcs ⊢
          rw [List.cons_append]
          rw [hihcs]
        · rw [if_neg h2] at hihcs ⊢
          rw [if_neg hcsne] at hihcs
          rw [if_neg (show ¬(c :: cs = []) by simp), List.cons_append, hihcs]
          simp

theorem rustLines_joinNl_append (K : List (List Char))
    (hK : ∀ k ∈ K, '\n' ∉ k) (r : List Char) :
    rustLines (joinNl K ++ r) = K.map stripCR ++ rustLines r := by
  induction K with
  | nil => rfl
  | cons k K ih =>
    rw [joinNl_cons]
    have hassoc : (k ++ '\n' :: joinNl K) ++ r = k ++ '\n' :: (joinNl K ++ r) := by
      simp
    rw [hassoc, rustLines_append_nl, rustLines_single_nl (hK k (by simp))]
    rw [ih (fun x hx => hK x (by simp [hx]))]
    rfl

theorem rustLines_joinNl (K : List (List Char)) (hK : ∀ k ∈ K, '\n' ∉ k) :
    rustLines (joinNl K) = K.map stripCR := by
  have := rustLines_joinNl_append K hK []
  simpa [rustLines, splitInclusiveNl] using this

theorem rustTrim_stripCR (l : List Char) : rustTrim (stripCR l) = rustTrim l := by
  unfold stripCR
  by_cases h : l.getLast? = some '\r'
  · rw [if_pos h]
    have hd := eq_dropLast_append_of_getLast? h
    unfold rustTrim
    have : trimEnd l.dropLast = trimEnd l := by
      conv_rhs => rw [hd]
      rw [trimEnd_append_ws]
      intro x hx
      rcases List.mem_singleton.mp hx with rfl
      decide
    rw [this]
  · rw [if_neg h]

theorem trimEnd_joinNl_concat (K : List (List Char)) (k : List Char) :
    trimEnd (joinNl (K ++ [k])) =
      if trimEnd k = [] then trimEnd (joinNl K) else joinNl K ++ trimEnd k := by
  rw [joinNl_append]
  have hknl : joinNl [k] = k ++ ['\n'] := by simp [joinNl_cons, joinNl]
  rw [hknl]
  by_cases h : trimEnd k = []
  · rw [if_pos h]
    apply trimEnd_append_ws
    intro c hc
    rcases List.mem_append.mp hc with h2 | h2
    · exact (trimEnd_eq_nil_iff k).mp h c h2
    · rcases List.mem_singleton.mp h2 with rfl
      decide
  · rw [if_neg h]
    have hkn : trimEnd (k ++ ['\n']) = trimEnd k := by
      apply trimEnd_append_ws
      intro c hc
      rcases List.mem_singleton.mp hc with rfl
      decide
    rw [trimEnd_append_of_ne_nil _ _ (by rw [hkn]; exact h), hkn]

theorem relines (K : List (List Char)) (hK : ∀ k ∈ K, '\n' ∉ k) :
    ∀ l ∈ rustLines (trimEnd (joinNl K)), ∃ k ∈ K, rustTrim l = rustTrim k := by
  induction K using List.reverseRecOn with
  | nil => intro l hl; simp [joinNl, rustLines, splitInclusiveNl, trimEnd] at hl
  | append_singleton K k ih =>
    intro l hl
    rw [trimEnd_joinNl_concat] at hl
    by_cases h : trimEnd k = []
    · rw [if_pos h] at hl
      obtain ⟨k2, hk2, ht⟩ := ih (fun x hx => hK x (by simp [hx])) l hl
      exact ⟨k2, by simp [hk2], ht⟩
    · rw [if_neg h] at hl
      have hnl : '\n' ∉ trimEnd k := fun hc =>
        hK k (by simp) (mem_of_mem_trimEnd hc)
      rw [rustLines_joinNl_append K (fun x hx => hK x (by simp [hx])) (trimEnd k),
        rustLines_no_nl hnl h] at hl
      rcases List.mem_append.mp hl with h2 | h2
      · rcases List.mem_map.mp h2 with ⟨k2, hk2, rfl⟩
        exact ⟨k2, by simp [hk2], rustTrim_stripCR k2⟩
      · rcases List.mem_singleton.mp h2 with rfl
        exact ⟨k, by simp, rustTrim_trimEnd k⟩

theorem relines_nl (K : List (List Char)) (hK : ∀ k ∈ K, '\n' ∉ k) :
    ∀ l ∈ rustLines (trimEnd (joinNl K) ++ ['\n']),
      rustTrim l = [] ∨ ∃ k ∈ K, rustTrim l = rustTrim k := by
  induction K using List.reverseRecOn with
  | nil =>
    intro l hl
    left
    simp [joinNl, trimEnd, rustLines, splitInclusiveNl, lineOfSeg] at hl
    rw [hl]
    rfl
  | append_singleton K k ih =>
    intro l hl
    rw [trimEnd_joinNl_concat] at hl
    by_cases h : trimEnd k = []
    · rw [if_pos h] at hl
      rcases ih (fun x hx => hK x (by simp [hx])) l hl with h2 | ⟨k2, hk2, ht⟩
      · exact Or.inl h2
      · exact Or.inr ⟨k2, by simp [hk2], ht⟩
    · rw [if_neg h] at hl
      have hnl : '\n' ∉ trimEnd k := fun hc =>
        hK k (by simp) (mem_of_mem_trimEnd hc)
      have hassoc : (joinNl K ++ trimEnd k) ++ ['\n'] = joinNl K ++ (trimEnd k ++ ['\n']) := by
        simp
      rw [hassoc,
        rustLines_joinNl_append K (fun x hx => hK x (by simp [hx])) (trimEnd k ++ ['\n']),
        rustLines_single_nl' hnl (trimEnd_getLast?_ne_cr k)] at hl
      rcases List.mem_append.mp hl with h2 | h2
      · rcases List.mem_map.mp h2 with ⟨k2, hk2, rfl⟩
        exact Or.inr ⟨k2, by simp [hk2], rustTrim_stripCR k2⟩
      · rcases List.mem_singleton.mp h2 with rfl
        exact Or.inr ⟨k, by simp, rustTrim_trimEnd k⟩

/-! ### Kept-lines lemmas -/

theorem keptLines_cons (b : Bool) (x : List Char) (xs : List (List Char)) :
    keptLines b (x :: xs) =
      if rustTrim x = START_MARKER then keptLines true xs
      else if rustTrim x = END_MARKER then keptLines false xs
      else if b then keptLines true xs
      else x :: keptLines false xs := rfl

theorem keptLines_subset :
    ∀ (b : Bool) (L : List (List Char)) (l : List Char), l ∈ keptLines b L → l ∈ L := by
  intro b L
  induction L generalizing b with
  | nil => intro l h; simp [keptLines] at h
  | cons x xs ih =>
    intro l h
    rw [keptLines_cons] at h
    by_cases hs : rustTrim x = START_MARKER
    · rw [if_pos hs] at h
      exact List.mem_cons_of_mem x (ih true l h)
    · rw [if_neg hs] at h
      by_cases he : rustTrim x = END_MARKER
      · rw [if_pos he] at h
        exact List.mem_cons_of_mem x (ih false l h)
      · rw [if_neg he] at h
        cases b with
        | true =>
          rw [if_pos rfl] at h
          exact List.mem_cons_of_mem x (ih true l h)
        | false =>
          simp only [Bool.false_eq_true, if_false] at h
          rcases List.mem_cons.mp h with h1 | h2
          · simp [h1]
          · exact List.mem_cons_of_mem x (ih false l h2)

theorem keptLines_marker_free :
    ∀ (b : Bool) (L : List (List Char)) (l : List Char), l ∈ keptLines b L →
      rustTrim l ≠ START_MARKER ∧ rustTrim l ≠ END_MARKER := by
  intro b L
  induction L generalizing b with
  | nil => intro l h; simp [keptLines] at h
  | cons x xs ih =>
    intro l h
    rw [keptLines_cons] at h
    by_cases hs : rustTrim x = START_MARKER
    · rw [if_pos hs] at h
      exact ih true l h
    · rw [if_neg hs] at h
      by_cases he : rustTrim x = END_MARKER
      · rw [if_pos he] at h
        exact ih false l h
      · rw [if_neg he] at h
        cases b with
        | true =>
          rw [if_pos rfl] at h
          exact ih true l h
        | false =>
          simp only [Bool.false_eq_true, if_false] at h
          rcases List.mem_cons.mp h with h1 | h2
          · subst h1
            exact ⟨hs, he⟩
          · exact ih false l h2

theorem keptLines_false_append (L M : List (List Char))
    (h : ∀ l ∈ L, rustTrim l ≠ START_MARKER ∧ rustTrim l ≠ END_MARKER) :
    keptLines false (L ++ M) = L ++ keptLines false M := by
  induction L with
  | nil => rfl
  | cons x xs ih =>
    have hx := h x (by simp)
    rw [List.cons_append, keptLines_cons, if_neg hx.1, if_neg hx.2]
    simp only [Bool.false_eq_true, if_false]
    rw [ih (fun l hl => h l (by simp [hl])), List.cons_append]

theorem keptLines_true_append (L M : List (List Char))
    (h : ∀ l ∈ L, rustTrim l ≠ END_MARKER) :
    keptLines true (L ++ M) = keptLines true M := by
  induction L with
  | nil => rfl
  | cons x xs ih =>
    have hx := h x (by simp)
    rw [List.cons_append, keptLines_cons, if_neg hx]
    by_cases hs : rustTrim x = START_MARKER
    · rw [if_pos hs]
      exact ih (fun l hl => h l (by simp [hl]))
    · rw [if_neg hs, if_pos rfl]
      exact ih (fun l hl => h l (by simp [hl]))

/-! ### Section structure -/

/-- The lines contributed by one chunk of the rendered section when a
newline follows the chunk. -/
def chunkLines (a : List Char) : List (List Char) := rustLines (a ++ ['\n'])

/-- The line structure of the rendered managed section. -/
def sectionLines (docs : List (List Char × List Char)) (t : List Char) :
    List (List Char) :=
  START_MARKER :: disclaimerLine ::
    (chunkLines (updatedLabel ++ t) ++ [[]] ++
      (docs.map fun p =>
        chunkLines (sourceLabel ++ p.1) ++ chunkLines (rustTrim p.2) ++ [[]]).flatten
      ++ [END_MARKER])

theorem foldl_docBlock (ds : List (List Char × List Char)) (acc : List Char) :
    ds.foldl (fun a p => a ++ docBlock p) acc = acc ++ (ds.map docBlock).flatten := by
  induction ds generalizing acc with
  | nil => simp
  | cons d ds ih => simp [ih, List.append_assoc]

theorem build_auto_section_eq (docs : List (List Char × List Char)) (t : List Char) :
    build_auto_section docs t =
      START_MARKER ++ '\n' :: (disclaimerLine ++ '\n' ::
        (updatedLabel ++ t ++ '\n' :: '\n' ::
          ((docs.map docBlock).flatten ++ (END_MARKER ++ ['\n'])))) := by
  simp only [build_auto_section]
  rw [foldl_docBlock]
  simp [List.append_assoc]

theorem rustLines_cons_nl (b : List Char) :
    rustLines ('\n' :: b) = [] :: rustLines b := by
  have h := rustLines_append_nl [] b
  simp only [List.nil_append] at h
  rw [h]
  rfl

theorem rustLines_docBlocks (docs : List (List Char × List Char)) :
    rustLines ((docs.map docBlock).flatten ++ (END_MARKER ++ ['\n'])) =
      (docs.map fun p =>
        chunkLines (sourceLabel ++ p.1) ++ chunkLines (rustTrim p.2) ++ [[]]).flatten
      ++ [END_MARKER] := by
  induction docs with
  | nil =>
    simp only [List.map_nil, List.flatten_nil, List.nil_append]
    exact rustLines_single_nl' (by decide) (by decide)
  | cons p ds ih =>
    have hshape : (((p :: ds).map docBlock).flatten ++ (END_MARKER ++ ['\n'])) =
        (sourceLabel ++ p.1) ++ '\n' ::
          (rustTrim p.2 ++ '\n' :: ('\n' ::
            ((ds.map docBlock).flatten ++ (END_MARKER ++ ['\n'])))) := by
      simp [docBlock, List.append_assoc]
    have h1 : rustLines ((sourceLabel ++ p.1) ++ '\n' ::
        (rustTrim p.2 ++ '\n' :: ('\n' ::
          ((ds.map docBlock).flatten ++ (END_MARKER ++ ['\n']))))) =
        chunkLines (sourceLabel ++ p.1) ++
          rustLines (rustTrim p.2 ++ '\n' :: ('\n' ::
            ((ds.map docBlock).flatten ++ (END_MARKER ++ ['\n'])))) :=
      rustLines_append_nl _ _
    have h2 : rustLines (rustTrim p.2 ++ '\n' :: ('\n' ::
        ((ds.map docBlock).flatten ++ (END_MARKER ++ ['\n'])))) =
        chunkLines (rustTrim p.2) ++
          rustLines ('\n' :: ((ds.map docBlock).flatten ++ (END_MARKER ++ ['\n']))) :=
      rustLines_append_nl _ _
    have h3 : rustLines ('\n' :: ((ds.map docBlock).flatten ++ (END_MARKER ++ ['\n']))) =
        [] :: rustLines ((ds.map docBlock).flatten ++ (END_MARKER ++ ['\n'])) :=
      rustLines_cons_nl _
    rw [hshape, h1, h2, h3, ih]
    simp [List.append_assoc]

theorem rustLines_build_auto_section (docs : List (List Char × List Char))
    (t : List Char) :
    rustLines (build_auto_section docs t) = sectionLines docs t := by
  rw [build_auto_section_eq]
  rw [rustLines_append_nl, rustLines_single_nl' (by decide) (by decide)]
  rw [rustLines_append_nl, rustLines_single_nl' (by decide) (by decide)]
  have hshape : updatedLabel ++ t ++ '\n' :: '\n' ::
      ((docs.map docBlock).flatten ++ (END_MARKER ++ ['\n'])) =
      (updatedLabel ++ t) ++ '\n' :: ('\n' ::
        ((docs.map docBlock).flatten ++ (END_MARKER ++ ['\n']))) := by
    simp [List.append_assoc]
  rw [hshape, rustLines_append_nl, rustLines_cons_nl, rustLines_docBlocks]
  simp [sectionLines, chunkLines, List.append_assoc]

/-- No line of the chunk (followed by a newline) trims to the end marker. -/
def endFreeChunk (a : List Char) : Prop :=
  ∀ l ∈ chunkLines a, rustTrim l ≠ END_MARKER

/-- No line rendered from the timestamp, a source origin, or a trimmed
document text trims to the end marker. -/
def sectionEndFree (docs : List (List Char × List Char)) (t : List Char) : Prop :=
  endFreeChunk (updatedLabel ++ t) ∧
    ∀ p ∈ docs, endFreeChunk (sourceLabel ++ p.1) ∧ endFreeChunk (rustTrim p.2)

instance (a : List Char) : Decidable (endFreeChunk a) := by
  unfold endFreeChunk
  infer_instance

instance (docs : List (List Char × List Char)) (t : List Char) :
    Decidable (sectionEndFree docs t) := by
  unfold sectionEndFree
  infer_instance

theorem sectionLines_mid_end_free {docs : List (List Char × List Char)}
    {t : List Char} (h : sectionEndFree docs t) :
    ∀ l ∈ disclaimerLine ::
      (chunkLines (updatedLabel ++ t) ++ [[]] ++
        (docs.map fun p =>
          chunkLines (sourceLabel ++ p.1) ++ chunkLines (rustTrim p.2) ++ [[]]).flatten),
      rustTrim l ≠ END_MARKER := by
  intro l hl
  rcases List.mem_cons.mp hl with h1 | h1
  · subst h1; decide
  · rcases List.mem_append.mp h1 with h2 | h2
    · rcases List.mem_append.mp h2 with h3 | h3
      · exact h.1 l h3
      · rcases List.mem_singleton.mp h3 with rfl
        decide
    · rcases List.mem_flatten.mp h2 with ⟨blk, hblk, hlblk⟩
      rcases List.mem_map.mp hblk with ⟨p, hp, rfl⟩
      rcases List.mem_append.mp hlblk with h4 | h4
      · rcases List.mem_append.mp h4 with h5 | h5
        · exact (h.2 p hp).1 l h5
        · exact (h.2 p hp).2 l h5
      · rcases List.mem_singleton.mp h4 with rfl
        decide

theorem keptLines_false_sectionLines {docs : List (List Char × List Char)}
    {t : List Char} (h : sectionEndFree docs t) :
    keptLines false (sectionLines docs t) = [] := by
  have hshape : sectionLines docs t =
      START_MARKER ::
        ((disclaimerLine ::
          (chunkLines (updatedLabel ++ t) ++ [[]] ++
            (docs.map fun p =>
              chunkLines (sourceLabel ++ p.1) ++ chunkLines (rustTrim p.2) ++ [[]]).flatten))
          ++ [END_MARKER]) := by
    simp [sectionLines]
  rw [hshape]
  unfold keptLines
  rw [if_pos (by decide : rustTrim START_MARKER = START_MARKER)]
  rw [keptLines_true_append _ _ (sectionLines_mid_end_free h)]
  unfold keptLines
  rw [if_neg (by decide : ¬rustTrim END_MARKER = START_MARKER),
    if_pos (by decide : rustTrim END_MARKER = END_MARKER)]
  rfl

theorem start_mem_sectionLines (docs : List (List Char × List Char)) (t : List Char) :
    START_MARKER ∈ sectionLines docs t := by
  simp [sectionLines]

/-! ### Strip characterisation -/

theorem strip_found {content : List Char}
    (h : (rustLines content).any (fun l => rustTrim l == START_MARKER) = true) :
    remove_auto_managed_section content =
      trimEnd (joinNl (keptLines false (rustLines content))) := by
  simp only [remove_auto_managed_section]
  rw [if_pos h]

theorem strip_not_found {content : List Char}
    (h : (rustLines content).any (fun l => rustTrim l == START_MARKER) = false) :
    remove_auto_managed_section content = content := by
  simp only [remove_auto_managed_section]
  rw [if_neg (by simp [h])]

theorem strip_lines_marker_free {content : List Char}
    (hf : (rustLines content).any (fun l => rustTrim l == START_MARKER) = true) :
    ∀ l ∈ rustLines (remove_auto_managed_section content),
      rustTrim l ≠ START_MARKER ∧ rustTrim l ≠ END_MARKER := by
  rw [strip_found hf]
  intro l hl
  have hK : ∀ k ∈ keptLines false (rustLines content), '\n' ∉ k := fun k hk =>
    nl_not_mem_of_mem_rustLines (keptLines_subset _ _ k hk)
  obtain ⟨k, hk, ht⟩ := relines _ hK l hl
  have hfree := keptLines_marker_free false _ k hk
  rw [ht]
  exact hfree

/-! ### Merge-level lemmas -/

theorem merge_hosts_eq (existing : List Char) (docs : List (List Char × List Char))
    (t : List Char) :
    merge_hosts existing docs t =
      if rustTrim (remove_auto_managed_section existing) = [] then
        build_auto_section docs t
      else
        trimEnd (remove_auto_managed_section existing) ++ '\n' :: '\n' ::
          build_auto_section docs t := by
  simp only [merge_hosts]

theorem rustLines_sep (c S : List Char) :
    rustLines (c ++ '\n' :: '\n' :: S) = rustLines (c ++ ['\n']) ++ [] :: rustLines S := by
  have h1 := rustLines_append_nl c ('\n' :: S)
  rw [h1, rustLines_cons_nl]

theorem any_start_sectionLines (docs : List (List Char × List Char)) (t : List Char) :
    (sectionLines docs t).any (fun l => rustTrim l == START_MARKER) = true := by
  unfold sectionLines
  simp only [List.any_cons]
  rw [show (rustTrim START_MARKER == START_MARKER) = true by decide]
  simp

theorem crlfFree_append_nl : ∀ {s : List Char}, crlfFree s = true →
    s.getLast? ≠ some '\r' → crlfFree (s ++ ['\n']) = true := by
  intro s
  induction s with
  | nil => intro _ _; rfl
  | cons c cs ih =>
    intro h hlast
    cases cs with
    | nil =>
      have hc : c ≠ '\r' := by
        intro hh
        exact hlast (by rw [hh]; rfl)
      simp [crlfFree, hc]
    | cons d ds =>
      have h2 : crlfFree (d :: ds) = true := crlfFree_tail h
      have hpair : (c == '\r' && d == '\n') = false := by
        simp only [crlfFree, Bool.and_eq_true, Bool.not_eq_eq_eq_not, Bool.not_true] at h
        exact h.1
      have hlast2 : (d :: ds).getLast? ≠ some '\r' := by
        rw [← List.getLast?_cons_cons (a := c)]
        exact hlast
      have h3 := ih h2 hlast2
      show crlfFree (c :: d :: (ds ++ ['\n'])) = true
      have h4 : crlfFree (d :: (ds ++ ['\n'])) = true := by
        simpa using h3
      simp [crlfFree, h4, hpair]

theorem strip_section_eq_nil {docs : List (List Char × List Char)} {t : List Char}
    (hsec : sectionEndFree docs t) :
    remove_auto_managed_section (build_auto_section docs t) = [] := by
  have hfound : (rustLines (build_auto_section docs t)).any
      (fun l => rustTrim l == START_MARKER) = true := by
    rw [rustLines_build_auto_section]
    exact any_start_sectionLines docs t
  rw [strip_found hfound, rustLines_build_auto_section,
    keptLines_false_sectionLines hsec]
  rfl

theorem strip_merge_append {c : List Char} {docs : List (List Char × List Char)}
    {t : List Char}
    (hcrlf : crlfFree c = true)
    (hte : trimEnd c = c)
    (hne : c ≠ [])
    (hfree : ∀ l ∈ rustLines (c ++ ['\n']),
      rustTrim l ≠ START_MARKER ∧ rustTrim l ≠ END_MARKER)
    (hsec : sectionEndFree docs t) :
    remove_auto_managed_section (c ++ '\n' :: '\n' :: build_auto_section docs t) = c := by
  have hfound : (rustLines (c ++ '\n' :: '\n' :: build_auto_section docs t)).any
      (fun l => rustTrim l == START_MARKER) = true := by
    rw [rustLines_sep, rustLines_build_auto_section]
    simp only [List.any_append, List.any_cons]
    rw [any_start_sectionLines docs t]
    simp
  have hfree2 : ∀ l ∈ rustLines (c ++ ['\n']) ++ [([] : List Char)],
      rustTrim l ≠ START_MARKER ∧ rustTrim l ≠ END_MARKER := by
    intro l hl
    rcases List.mem_append.mp hl with h1 | h1
    · exact hfree l h1
    · rcases List.mem_singleton.mp h1 with rfl
      constructor <;> decide
  have hkept : keptLines false
      (rustLines (c ++ '\n' :: '\n' :: build_auto_section docs t)) =
      rustLines (c ++ ['\n']) ++ [[]] := by
    rw [rustLines_sep, rustLines_build_auto_section]
    rw [show rustLines (c ++ ['\n']) ++ [] :: sectionLines docs t =
      (rustLines (c ++ ['\n']) ++ [[]]) ++ sectionLines docs t by simp]
    rw [keptLines_false_append _ _ hfree2, keptLines_false_sectionLines hsec]
    simp
  rw [strip_found hfound, hkept, joinNl_append]
  have hj : joinNl [([] : List Char)] = ['\n'] := rfl
  rw [hj]
  have hcr2 : crlfFree (c ++ ['\n']) = true := by
    apply crlfFree_append_nl hcrlf
    rw [← hte]
    exact trimEnd_getLast?_ne_cr c
  have hrj := joinNl_rustLines hcr2
  rw [if_pos (List.getLast?_concat _)] at hrj
  rw [hrj]
  have hws : trimEnd ((c ++ ['\n']) ++ ['\n']) = trimEnd c := by
    rw [trimEnd_append_ws _ _ (by intro x hx; rcases List.mem_singleton.mp hx with rfl; decide)]
    rw [trimEnd_append_ws _ _ (by intro x hx; rcases List.mem_singleton.mp hx with rfl; decide)]
  rw [hws, hte]

theorem rustLines_nil : rustLines [] = [] := rfl

theorem joinNl_rustLines_complete {s : List Char} (h : crlfFree s = true)
    (hend : s = [] ∨ s.getLast? = some '\n') : joinNl (rustLines s) = s := by
  rcases hend with rfl | hend
  · rfl
  · have h2 := joinNl_rustLines h
    rw [if_pos hend] at h2
    exact h2

theorem joinNl_rustLines_incomplete {s : List Char} (h : crlfFree s = true)
    (hne : s ≠ []) (hend : s.getLast? ≠ some '\n') :
    joinNl (rustLines s) = s ++ ['\n'] := by
  have h2 := joinNl_rustLines h
  rw [if_neg hend, if_neg hne] at h2
  exact h2

theorem strip_region_frame {A Mi B : List Char}
    (hA : A = [] ∨ A.getLast? = some '\n')
    (hAcrlf : crlfFree A = true)
    (hAfree : ∀ l ∈ rustLines A, rustTrim l ≠ START_MARKER ∧ rustTrim l ≠ END_MARKER)
    (hM : Mi = [] ∨ Mi.getLast? = some '\n')
    (hMfree : ∀ l ∈ rustLines Mi, rustTrim l ≠ END_MARKER)
    (hBcrlf : crlfFree B = true)
    (hBfree : ∀ l ∈ rustLines B, rustTrim l ≠ START_MARKER ∧ rustTrim l ≠ END_MARKER) :
    remove_auto_managed_section
        (A ++ (START_MARKER ++ '\n' :: (Mi ++ (END_MARKER ++ '\n' :: B)))) =
      trimEnd (A ++ B) := by
  have hlinesEnd : rustLines (END_MARKER ++ '\n' :: B) = END_MARKER :: rustLines B := by
    rw [rustLines_append_nl, rustLines_single_nl' (by decide) (by decide)]
    rfl
  have hlinesMi : rustLines (Mi ++ (END_MARKER ++ '\n' :: B)) =
      rustLines Mi ++ (END_MARKER :: rustLines B) := by
    rcases hM with rfl | hM
    · simp [hlinesEnd, rustLines_nil]
    · rw [rustLines_append_complete _ hM, hlinesEnd]
  have hlinesStart : rustLines (START_MARKER ++ '\n' :: (Mi ++ (END_MARKER ++ '\n' :: B))) =
      START_MARKER :: (rustLines Mi ++ (END_MARKER :: rustLines B)) := by
    rw [rustLines_append_nl, rustLines_single_nl' (by decide) (by decide), hlinesMi]
    rfl
  have hlinesX : rustLines
      (A ++ (START_MARKER ++ '\n' :: (Mi ++ (END_MARKER ++ '\n' :: B)))) =
      rustLines A ++
        (START_MARKER :: (rustLines Mi ++ (END_MARKER :: rustLines B))) := by
    rcases hA with rfl | hA
    · simp [hlinesStart, rustLines_nil]
    · rw [rustLines_append_complete _ hA, hlinesStart]
  have hfound : (rustLines
      (A ++ (START_MARKER ++ '\n' :: (Mi ++ (END_MARKER ++ '\n' :: B))))).any
      (fun l => rustTrim l == START_MARKER) = true := by
    rw [hlinesX]
    simp only [List.any_append, List.any_cons]
    rw [show (rustTrim START_MARKER == START_MARKER) = true by decide]
    simp
  rw [strip_found hfound, hlinesX]
  have hkept : keptLines false
      (rustLines A ++ (START_MARKER :: (rustLines Mi ++ (END_MARKER :: rustLines B)))) =
      rustLines A ++ rustLines B := by
    rw [keptLines_false_append _ _ hAfree, keptLines_cons,
      if_pos (by decide : rustTrim START_MARKER = START_MARKER),
      keptLines_true_append _ _ hMfree, keptLines_cons,
      if_neg (by decide : ¬rustTrim END_MARKER = START_MARKER),
      if_pos (by decide : rustTrim END_MARKER = END_MARKER)]
    rw [show rustLines B = rustLines B ++ [] by simp,
      keptLines_false_append _ _ hBfree]
    simp [keptLines]
  rw [hkept, joinNl_append, joinNl_rustLines_complete hAcrlf hA]
  by_cases hBnil : B = []
  · subst hBnil
    simp [joinNl, rustLines_nil]
  · by_cases hBend : B.getLast? = some '\n'
    · rw [joinNl_rustLines_complete hBcrlf (Or.inr hBend)]
    · rw [joinNl_rustLines_incomplete hBcrlf hBnil hBend]
      rw [show A ++ (B ++ ['\n']) = (A ++ B) ++ ['\n'] by simp]
      apply trimEnd_append_ws
      intro x hx
      rcases List.mem_singleton.mp hx with rfl
      decide

/-! ### Marker counting -/

/-- No line of the chunk (followed by a newline) trims to either marker. -/
def bothFreeChunk (a : List Char) : Prop :=
  ∀ l ∈ chunkLines a, rustTrim l ≠ START_MARKER ∧ rustTrim l ≠ END_MARKER

instance (a : List Char) : Decidable (bothFreeChunk a) := by
  unfold bothFreeChunk
  infer_instance

/-- No line rendered from the timestamp, a source origin, or a trimmed
document text trims to either marker. -/
def sectionMarkerFree (docs : List (List Char × List Char)) (t : List Char) : Prop :=
  bothFreeChunk (updatedLabel ++ t) ∧
    ∀ p ∈ docs, bothFreeChunk (sourceLabel ++ p.1) ∧ bothFreeChunk (rustTrim p.2)

instance (docs : List (List Char × List Char)) (t : List Char) :
    Decidable (sectionMarkerFree docs t) := by
  unfold sectionMarkerFree
  infer_instance

theorem sectionMarkerFree_endFree {docs : List (List Char × List Char)}
    {t : List Char} (h : sectionMarkerFree docs t) : sectionEndFree docs t :=
  ⟨fun l hl => (h.1 l hl).2,
   fun p hp => ⟨fun l hl => ((h.2 p hp).1 l hl).2, fun l hl => ((h.2 p hp).2 l hl).2⟩⟩

/-- Number of lines trimming to the start marker. -/
def startCount (s : List Char) : Nat :=
  ((rustLines s).filter (fun l => rustTrim l == START_MARKER)).length

/-- Number of lines trimming to the end marker. -/
def endCount (s : List Char) : Nat :=
  ((rustLines s).filter (fun l => rustTrim l == END_MARKER)).length

theorem filter_marker_nil {L : List (List Char)} {m : List Char}
    (h : ∀ l ∈ L, rustTrim l ≠ m) :
    L.filter (fun l => rustTrim l == m) = [] :=
  List.filter_eq_nil_iff.mpr (fun a ha => by simp [h a ha])

theorem sectionLines_mid_both_free {docs : List (List Char × List Char)}
    {t : List Char} (h : sectionMarkerFree docs t) :
    ∀ l ∈ disclaimerLine ::
      (chunkLines (updatedLabel ++ t) ++ [[]] ++
        (docs.map fun p =>
          chunkLines (sourceLabel ++ p.1) ++ chunkLines (rustTrim p.2) ++ [[]]).flatten),
      rustTrim l ≠ START_MARKER ∧ rustTrim l ≠ END_MARKER := by
  intro l hl
  rcases List.mem_cons.mp hl with h1 | h1
  · subst h1; constructor <;> decide
  · rcases List.mem_append.mp h1 with h2 | h2
    · rcases List.mem_append.mp h2 with h3 | h3
      · exact h.1 l h3
      · rcases List.mem_singleton.mp h3 with rfl
        constructor <;> decide
    · rcases List.mem_flatten.mp h2 with ⟨blk, hblk, hlblk⟩
      rcases List.mem_map.mp hblk with ⟨p, hp, rfl⟩
      rcases List.mem_append.mp hlblk with h4 | h4
      · rcases List.mem_append.mp h4 with h5 | h5
        · exact (h.2 p hp).1 l h5
        · exact (h.2 p hp).2 l h5
      · rcases List.mem_singleton.mp h4 with rfl
        constructor <;> decide

theorem sectionLines_counts {docs : List (List Char × List Char)} {t : List Char}
    (h : sectionMarkerFree docs t) :
    ((sectionLines docs t).filter (fun l => rustTrim l == START_MARKER)).length = 1 ∧
    ((sectionLines docs t).filter (fun l => rustTrim l == END_MARKER)).length = 1 := by
  have hshape : sectionLines docs t =
      START_MARKER ::
        ((disclaimerLine ::
          (chunkLines (updatedLabel ++ t) ++ [[]] ++
            (docs.map fun p =>
              chunkLines (sourceLabel ++ p.1) ++ chunkLines (rustTrim p.2) ++ [[]]).flatten))
          ++ [END_MARKER]) := by
    simp [sectionLines]
  rw [hshape]
  have hmid := sectionLines_mid_both_free h
  constructor
  · rw [List.filter_cons, if_pos (by decide : (rustTrim START_MARKER == START_MARKER) = true)]
    rw [List.filter_append, filter_marker_nil (fun l hl => (hmid l hl).1)]
    rw [show List.filter (fun l => rustTrim l == START_MARKER) [END_MARKER] = [] by decide]
    rfl
  · rw [List.filter_cons, if_neg (by decide : ¬((rustTrim START_MARKER == END_MARKER) = true))]
    rw [List.filter_append, filter_marker_nil (fun l hl => (hmid l hl).2)]
    rw [show List.filter (fun l => rustTrim l == END_MARKER) [END_MARKER] = [END_MARKER] by decide]
    rfl

theorem any_start_merge (c : List Char) (docs : List (List Char × List Char))
    (t : List Char) :
    (rustLines (merge_hosts c docs t)).any (fun l => rustTrim l == START_MARKER) = true := by
  rw [merge_hosts_eq]
  by_cases hb : rustTrim (remove_auto_managed_section c) = []
  · rw [if_pos hb, rustLines_build_auto_section]
    exact any_start_sectionLines _ _
  · rw [if_neg hb, rustLines_sep, rustLines_build_auto_section]
    simp only [List.any_append, List.any_cons, any_start_sectionLines]
    simp

/-! ### Domain grammar lemmas -/

theorem char_eq_of_toNat_eq {a b : Char} (h : a.toNat = b.toNat) : a = b :=
  Char.ext (UInt32.ext h)

theorem splitOnChar_cons (sep c : Char) (cs : List Char) :
    splitOnChar sep (c :: cs) =
      if c = sep then [] :: splitOnChar sep cs
      else
        match splitOnChar sep cs with
        | [] => [[c]]
        | p :: ps => (c :: p) :: ps := rfl

theorem splitOnChar_ne_nil (sep : Char) : ∀ d : List Char, splitOnChar sep d ≠ [] := by
  intro d
  cases d with
  | nil => simp [splitOnChar]
  | cons c cs =>
    rw [splitOnChar_cons]
    by_cases hc : c = sep
    · simp [hc]
    · rw [if_neg hc]
      cases splitOnChar sep cs with
      | nil => simp
      | cons p ps => simp

theorem splitOnChar_cons_nosep {sep c : Char} {cs p : List Char}
    {ps : List (List Char)} (hc : ¬c = sep) (h : splitOnChar sep cs = p :: ps) :
    splitOnChar sep (c :: cs) = (c :: p) :: ps := by
  rw [splitOnChar_cons, if_neg hc, h]

theorem mem_of_mem_splitOnChar {sep : Char} :
    ∀ {d l : List Char}, l ∈ splitOnChar sep d → ∀ c ∈ l, c ∈ d := by
  intro d
  induction d with
  | nil =>
    intro l hl c hc
    simp [splitOnChar] at hl
    subst hl
    simp at hc
  | cons x xs ih =>
    intro l hl c hc
    by_cases hx : x = sep
    · rw [splitOnChar_cons, if_pos hx] at hl
      rcases List.mem_cons.mp hl with h1 | h1
      · subst h1; simp at hc
      · exact List.mem_cons_of_mem x (ih h1 c hc)
    · cases hs : splitOnChar sep xs with
      | nil => exact absurd hs (splitOnChar_ne_nil sep xs)
      | cons p ps =>
        rw [splitOnChar_cons_nosep hx hs] at hl
        rcases List.mem_cons.mp hl with h1 | h1
        · subst h1
          rcases List.mem_cons.mp hc with h2 | h2
          · simp [h2]
          · exact List.mem_cons_of_mem x (ih (by rw [hs]; simp) c h2)
        · exact List.mem_cons_of_mem x (ih (by rw [hs]; simp [h1]) c hc)

theorem utf8Bytes_ascii {c : Char} (h : c.toNat < 128) : utf8Bytes c = [c.toNat] := by
  unfold utf8Bytes
  rw [if_pos h]

theorem strBytes_ascii : ∀ {d : List Char}, (∀ c ∈ d, c.toNat < 128) →
    strBytes d = d.map Char.toNat := by
  intro d
  induction d with
  | nil => intro _; rfl
  | cons c cs ih =>
    intro h
    show utf8Bytes c ++ strBytes cs = _
    rw [utf8Bytes_ascii (h c (by simp)), ih (fun x hx => h x (by simp [hx]))]
    rfl

theorem latin1Alnum_ascii : ∀ n < 128, latin1Alnum n =
    decide ((48 ≤ n ∧ n ≤ 57) ∨ (97 ≤ n ∧ n ≤ 122) ∨ (65 ≤ n ∧ n ≤ 90)) := by
  decide

theorem latin1Alnum_toNat {c : Char} (h : c.toNat < 128) :
    latin1Alnum c.toNat = asciiAlnum c :=
  latin1Alnum_ascii c.toNat h

theorem all_map_general {α β : Type} (f : α → β) (l : List α) (p : β → Bool) :
    (l.map f).all p = l.all (fun x => p (f x)) := by
  induction l with
  | nil => rfl
  | cons x xs ih => simp only [List.map_cons, List.all_cons, ih]

theorem all_congr_mem {α : Type} {l : List α} {p q : α → Bool}
    (h : ∀ x ∈ l, p x = q x) : l.all p = l.all q := by
  induction l with
  | nil => rfl
  | cons x xs ih =>
    simp only [List.all_cons]
    rw [h x (by simp), ih (fun y hy => h y (by simp [hy]))]

theorem getLastD_map_toNat (x : Char) (xs : List Char) (a : Nat) (b : Char) :
    ((x :: xs).map Char.toNat).getLastD a = ((x :: xs).getLastD b).toNat := by
  rw [List.getLastD_eq_getLast?, List.getLastD_eq_getLast?, List.getLast?_map]
  cases h : (x :: xs).getLast? with
  | none => simp at h
  | some g => simp

theorem getLastD_mem_cons (x : Char) (xs : List Char) (b : Char) :
    (x :: xs).getLastD b ∈ (x :: xs) := by
  rw [List.getLastD_eq_getLast?]
  cases h : (x :: xs).getLast? with
  | none => simp at h
  | some g =>
    simp only [Option.getD_some]
    rw [eq_dropLast_append_of_getLast? h]
    simp

theorem domainLabelOk_ascii {label : List Char} (h : ∀ c ∈ label, c.toNat < 128) :
    domainLabelOk label = specLabelOk label := by
  cases label with
  | nil => rfl
  | cons x xs =>
    unfold domainLabelOk
    rw [strBytes_ascii h]
    simp only [List.map_cons]
    unfold specLabelOk
    have hx : x.toNat < 128 := h x (by simp)
    have hlen : (x.toNat :: xs.map Char.toNat).length = (x :: xs).length := by
      simp
    rw [hlen]
    rw [latin1Alnum_toNat hx]
    have hlast : (x.toNat :: xs.map Char.toNat).getLastD 0 =
        ((x :: xs).getLastD ' ').toNat := by
      have := getLastD_map_toNat x xs 0 ' '
      simpa using this
    rw [hlast, latin1Alnum_toNat (h _ (getLastD_mem_cons x xs ' '))]
    have hall : (x.toNat :: xs.map Char.toNat).all
        (fun y => latin1Alnum y || decide (y = 45)) =
        (x :: xs).all (fun c => asciiAlnum c || decide (c = '-')) := by
      have hmap : (x.toNat :: xs.map Char.toNat) = (x :: xs).map Char.toNat := by simp
      rw [hmap, all_map_general]
      apply all_congr_mem
      intro c hc
      rw [latin1Alnum_toNat (h c hc)]
      have : decide (c.toNat = 45) = decide (c = '-') := by
        by_cases hcc : c = '-'
        · subst hcc; rfl
        · have : ¬ c.toNat = 45 := fun hn => hcc (char_eq_of_toNat_eq hn)
          simp [hcc, this]
      rw [this]
    rw [hall]

/-! ### Address parsing lemmas -/

/-- A canonical decimal octet string: nonempty, all digits, no leading zero
unless it is the single digit zero, value at most 255. -/
def canonOctet (ds : List Char) : Prop :=
  ds ≠ [] ∧ (∀ c ∈ ds, isAsciiDigit c = true) ∧
    (ds.length = 1 ∨ ds.head? ≠ some '0') ∧ digitsVal ds ≤ 255

instance (ds : List Char) : Decidable (canonOctet ds) := by
  unfold canonOctet
  infer_instance

/-- A dotted component that is not a decimal octet in range: empty, holding
a non-digit, or with value above 255. -/
def badOctet (p : List Char) : Prop :=
  p = [] ∨ (∃ c ∈ p, isAsciiDigit c = false) ∨ 255 < digitsVal p

instance (p : List Char) : Decidable (badOctet p) := by
  unfold badOctet
  infer_instance

theorem takeWhile_exact {p : Char → Bool} {a : List Char}
    (ha : ∀ c ∈ a, p c = true) {b : Char} (hb : p b = false) (r : List Char) :
    (a ++ b :: r).takeWhile p = a ∧ (a ++ b :: r).dropWhile p = b :: r := by
  induction a with
  | nil =>
    simp only [List.nil_append, List.takeWhile_cons, List.dropWhile_cons, hb]
    simp
  | cons c a ih =>
    have hc := ha c (by simp)
    have ih2 := ih (fun x hx => ha x (by simp [hx]))
    simp only [List.cons_append, List.takeWhile_cons, List.dropWhile_cons, hc]
    simp only [if_true]
    exact ⟨by rw [ih2.1], by rw [ih2.2]⟩

theorem foldl_digits (ds : List Char) (a : Nat) :
    ds.foldl (fun x c => x * 10 + digitVal c) a = a * 10 ^ ds.length + digitsVal ds := by
  induction ds generalizing a with
  | nil => simp [digitsVal]
  | cons c ds ih =>
    show List.foldl _ (a * 10 + digitVal c) ds = _
    rw [ih]
    have h2 : digitsVal (c :: ds) = digitVal c * 10 ^ ds.length + digitsVal ds := by
      show List.foldl _ (0 * 10 + digitVal c) ds = _
      rw [ih]
      ring
    rw [h2]
    simp only [List.length_cons]
    ring

theorem digitsVal_cons (c : Char) (ds : List Char) :
    digitsVal (c :: ds) = digitVal c * 10 ^ ds.length + digitsVal ds := by
  show List.foldl _ (0 * 10 + digitVal c) ds = _
  rw [foldl_digits]
  ring

theorem canonOctet_length_le {ds : List Char} (h : canonOctet ds) : ds.length ≤ 3 := by
  obtain ⟨hne, hdig, hz, hv⟩ := h
  by_contra hlen
  push_neg at hlen
  cases ds with
  | nil => exact hne rfl
  | cons c rest =>
    rcases hz with hz | hz
    · simp only [List.length_cons] at hz hlen
      omega
    · have hc : c ≠ '0' := by
        intro hh
        apply hz
        rw [hh]
        rfl
      have hcd := hdig c (by simp)
      simp only [isAsciiDigit, decide_eq_true_eq] at hcd
      have hc48 : c.toNat ≠ 48 := by
        intro hh
        exact hc (char_eq_of_toNat_eq hh)
      have hdv : 1 ≤ digitVal c := by
        unfold digitVal
        omega
      have hpow : 1000 ≤ 10 ^ rest.length := by
        calc (1000 : Nat) = 10 ^ 3 := by norm_num
        _ ≤ 10 ^ rest.length := Nat.pow_le_pow_right (by norm_num) (by simp at hlen; omega)
      have := digitsVal_cons c rest
      have hge : 1000 ≤ digitsVal (c :: rest) := by
        rw [this]
        calc (1000 : Nat) ≤ 10 ^ rest.length := hpow
        _ ≤ digitVal c * 10 ^ rest.length := by
            have := Nat.mul_le_mul_right (10 ^ rest.length) hdv
            simpa using this
        _ ≤ digitVal c * 10 ^ rest.length + digitsVal rest := Nat.le_add_right _ _
      omega

theorem readOctet_canon_append {ds : List Char} (h : canonOctet ds) {b : Char}
    (hb : isAsciiDigit b = false) (r : List Char) :
    readOctet (ds ++ b :: r) = some (b :: r) := by
  obtain ⟨hne, hdig, hz, hv⟩ := h
  have hsplit := takeWhile_exact hdig hb r
  unfold readOctet
  rw [hsplit.1, hsplit.2]
  rw [if_neg hne]
  rw [if_neg (by have := canonOctet_length_le ⟨hne, hdig, hz, hv⟩; omega)]
  rw [if_neg ?_, if_neg (by omega)]
  rintro ⟨hh0, hh1⟩
  rcases hz with hz | hz
  · omega
  · exact hz hh0

theorem readOctet_canon_all {ds : List Char} (h : canonOctet ds) :
    readOctet ds = some [] := by
  obtain ⟨hne, hdig, hz, hv⟩ := h
  have ht : ds.takeWhile isAsciiDigit = ds := List.takeWhile_eq_self_iff.mpr hdig
  have hd : ds.dropWhile isAsciiDigit = [] := List.dropWhile_eq_nil_iff.mpr hdig
  unfold readOctet
  rw [ht, hd]
  rw [if_neg hne]
  rw [if_neg (by have := canonOctet_length_le ⟨hne, hdig, hz, hv⟩; omega)]
  rw [if_neg ?_, if_neg (by omega)]
  rintro ⟨hh0, hh1⟩
  rcases hz with hz | hz
  · omega
  · exact hz hh0

theorem expectChar_cons (c x : Char) (xs : List Char) :
    expectChar c (x :: xs) = if x = c then some xs else none := rfl

theorem expectChar_self (c : Char) (r : List Char) :
    expectChar c (c :: r) = some r := by
  rw [expectChar_cons, if_pos rfl]

theorem readIpv4_canon {a b c d : List Char} (ha : canonOctet a) (hb : canonOctet b)
    (hc : canonOctet c) (hd : canonOctet d) :
    readIpv4 (a ++ '.' :: (b ++ '.' :: (c ++ '.' :: d))) = some [] := by
  have hdot : isAsciiDigit '.' = false := by decide
  simp only [readIpv4, readOctet_canon_append ha hdot, expectChar_self,
    readOctet_canon_append hb hdot, readOctet_canon_append hc hdot,
    readOctet_canon_all hd]

/-- A successful octet read consumed a nonempty all-digit prefix with value
at most 255 and returned exactly the rest. -/
theorem readOctet_some {s r : List Char} (h : readOctet s = some r) :
    s = s.takeWhile isAsciiDigit ++ r ∧
    (∀ c ∈ s.takeWhile isAsciiDigit, isAsciiDigit c = true) ∧
    s.takeWhile isAsciiDigit ≠ [] ∧
    digitsVal (s.takeWhile isAsciiDigit) ≤ 255 := by
  simp only [readOctet] at h
  split at h
  · exact absurd h (by simp)
  · split at h
    · exact absurd h (by simp)
    · split at h
      · exact absurd h (by simp)
      · split at h
        · exact absurd h (by simp)
        · have hr : r = s.dropWhile isAsciiDigit := (Option.some.inj h).symm
          refine ⟨?_, ?_, ?_, ?_⟩
          · rw [hr, List.takeWhile_append_dropWhile]
          · exact fun c hc => List.mem_takeWhile_imp hc
          · assumption
          · omega

theorem expectChar_some {c : Char} {s r : List Char} (h : expectChar c s = some r) :
    s = c :: r := by
  cases s with
  | nil => exact absurd h (by simp [expectChar])
  | cons x xs =>
    rw [expectChar_cons] at h
    split at h
    · rename_i hx
      rw [hx, Option.some.inj h]
    · exact absurd h (by simp)

theorem readIpv4_some {s r : List Char} (h : readIpv4 s = some r) :
    ∃ a b c d : List Char,
      s = a ++ '.' :: (b ++ '.' :: (c ++ '.' :: (d ++ r))) ∧
      (a ≠ [] ∧ (∀ x ∈ a, isAsciiDigit x = true) ∧ digitsVal a ≤ 255) ∧
      (b ≠ [] ∧ (∀ x ∈ b, isAsciiDigit x = true) ∧ digitsVal b ≤ 255) ∧
      (c ≠ [] ∧ (∀ x ∈ c, isAsciiDigit x = true) ∧ digitsVal c ≤ 255) ∧
      (d ≠ [] ∧ (∀ x ∈ d, isAsciiDigit x = true) ∧ digitsVal d ≤ 255) := by
  unfold readIpv4 at h
  split at h
  · exact absurd h (by simp)
  · rename_i s1 h1
    split at h
    · exact absurd h (by simp)
    · rename_i s2 h2
      split at h
      · exact absurd h (by simp)
      · rename_i s3 h3
        split at h
        · exact absurd h (by simp)
        · rename_i s4 h4
          split at h
          · exact absurd h (by simp)
          · rename_i s5 h5
            split at h
            · exact absurd h (by simp)
            · rename_i s6 h6
              obtain ⟨ha1, ha2, ha3, ha4⟩ := readOctet_some h1
              obtain ⟨hb1, hb2, hb3, hb4⟩ := readOctet_some h3
              obtain ⟨hc1, hc2, hc3, hc4⟩ := readOctet_some h5
              obtain ⟨hd1, hd2, hd3, hd4⟩ := readOctet_some h
              have e2 := expectChar_some h2
              have e4 := expectChar_some h4
              have e6 := expectChar_some h6
              refine ⟨s.takeWhile isAsciiDigit, s2.takeWhile isAsciiDigit,
                s4.takeWhile isAsciiDigit, s6.takeWhile isAsciiDigit, ?_,
                ⟨ha3, ha2, ha4⟩, ⟨hb3, hb2, hb4⟩, ⟨hc3, hc2, hc4⟩, ⟨hd3, hd2, hd4⟩⟩
              have key1 : s4 = s4.takeWhile isAsciiDigit ++
                  '.' :: (s6.takeWhile isAsciiDigit ++ r) := by
                conv_lhs => rw [hc1, e6, hd1]
              have key0 : s2 = s2.takeWhile isAsciiDigit ++
                  '.' :: (s4.takeWhile isAsciiDigit ++
                    '.' :: (s6.takeWhile isAsciiDigit ++ r)) := by
                conv_lhs => rw [hb1, e4, key1]
              conv_lhs => rw [ha1, e2, key0]

theorem splitOnChar_not_mem {sep : Char} : ∀ {a : List Char}, sep ∉ a →
    splitOnChar sep a = [a] := by
  intro a
  induction a with
  | nil => intro _; rfl
  | cons c cs ih =>
    intro h
    have hc : ¬ c = sep := fun hh => h (by simp [hh])
    have hcs : sep ∉ cs := fun hh => h (by simp [hh])
    rw [splitOnChar_cons_nosep hc (ih hcs)]

theorem splitOnChar_append {sep : Char} : ∀ {a : List Char} (r : List Char),
    sep ∉ a → splitOnChar sep (a ++ sep :: r) = a :: splitOnChar sep r := by
  intro a
  induction a with
  | nil =>
    intro r _
    simp only [List.nil_append]
    rw [splitOnChar_cons, if_pos rfl]
  | cons c cs ih =>
    intro r h
    have hc : ¬ c = sep := fun hh => h (by simp [hh])
    have hcs : sep ∉ cs := fun hh => h (by simp [hh])
    rw [List.cons_append, splitOnChar_cons_nosep hc (ih r hcs)]

theorem expectChar_not_mem {c : Char} {s : List Char} (h : c ∉ s) :
    expectChar c s = none := by
  cases s with
  | nil => rfl
  | cons x xs =>
    rw [expectChar_cons, if_neg (fun hh => h (by simp [hh]))]

theorem readSep_pos {i : Nat} (hi : ¬ i = 0)
    (inner : List Char → Option (List Char)) {s : List Char} (h : ':' ∉ s) :
    readSep i inner s = none := by
  unfold readSep
  rw [if_neg hi, expectChar_not_mem h]

theorem readHexGroup_some {s r : List Char} (h : readHexGroup s = some r) :
    r = s.dropWhile isHexDigitRust := by
  simp only [readHexGroup] at h
  split at h
  · exact absurd h (by simp)
  · split at h
    · exact absurd h (by simp)
    · exact (Option.some.inj h).symm

theorem readGroupsAux_succ (rem i : Nat) (s : List Char) :
    readGroupsAux (rem + 1) i s =
      match (if 1 ≤ rem then readSep i readIpv4 s else none) with
      | some s2 => (2, true, s2)
      | none =>
        match readSep i readHexGroup s with
        | some s2 =>
          let r := readGroupsAux rem (i + 1) s2
          (r.1 + 1, r.2.1, r.2.2)
        | none => (0, false, s) := rfl

theorem readGroupsAux_pos : ∀ (rem : Nat) {i : Nat} {s : List Char}, 1 ≤ i →
    ':' ∉ s → readGroupsAux rem i s = (0, false, s) := by
  intro rem
  cases rem with
  | zero => intro i s _ _; rfl
  | succ rem =>
    intro i s hi h
    rw [readGroupsAux_succ]
    have hni : ¬ i = 0 := by omega
    have h1 : (if 1 ≤ rem then readSep i readIpv4 s else none) = none := by
      split
      · exact readSep_pos hni _ h
      · rfl
    rw [h1, readSep_pos hni _ h]

theorem readGroupsAux_succ_ipv4 {rem i : Nat} {s s2 : List Char}
    (h1 : (if 1 ≤ rem then readSep i readIpv4 s else none) = some s2) :
    readGroupsAux (rem + 1) i s = (2, true, s2) := by
  rw [readGroupsAux_succ, h1]

theorem readGroupsAux_succ_hex {rem i : Nat} {s s2 : List Char}
    (h1 : (if 1 ≤ rem then readSep i readIpv4 s else none) = none)
    (h2 : readSep i readHexGroup s = some s2) :
    readGroupsAux (rem + 1) i s =
      ((readGroupsAux rem (i + 1) s2).1 + 1, (readGroupsAux rem (i + 1) s2).2.1,
        (readGroupsAux rem (i + 1) s2).2.2) := by
  rw [readGroupsAux_succ, h1, h2]

theorem readGroupsAux_succ_none {rem i : Nat} {s : List Char}
    (h1 : (if 1 ≤ rem then readSep i readIpv4 s else none) = none)
    (h2 : readSep i readHexGroup s = none) :
    readGroupsAux (rem + 1) i s = (0, false, s) := by
  rw [readGroupsAux_succ, h1, h2]

theorem readGroupsAux_zero_cases (rem : Nat) {s : List Char} (h : ':' ∉ s) :
    readGroupsAux rem 0 s = (0, false, s) ∨
    (∃ r, readGroupsAux rem 0 s = (2, true, r)) ∨
    (∃ r, (':' ∉ r) ∧ readGroupsAux rem 0 s = (1, false, r)) := by
  cases rem with
  | zero => left; rfl
  | succ rem =>
    cases h1 : (if 1 ≤ rem then readSep 0 readIpv4 s else none) with
    | some s2 =>
      right; left
      exact ⟨s2, readGroupsAux_succ_ipv4 h1⟩
    | none =>
      cases h2 : readSep 0 readHexGroup s with
      | none =>
        left
        exact readGroupsAux_succ_none h1 h2
      | some s2 =>
        have hs2 : s2 = s.dropWhile isHexDigitRust := by
          unfold readSep at h2
          rw [if_pos rfl] at h2
          exact readHexGroup_some h2
        have hn2 : ':' ∉ s2 := by
          rw [hs2]
          intro hmem
          exact h ((List.dropWhile_sublist _).subset hmem)
        right; right
        refine ⟨s2, hn2, ?_⟩
        rw [readGroupsAux_succ_hex h1 h2, readGroupsAux_pos rem (by omega) hn2]

theorem readIpv6_no_colon {s : List Char} (h : ':' ∉ s) : readIpv6 s = none := by
  unfold readIpv6
  rcases readGroupsAux_zero_cases 8 h with h1 | ⟨r, h1⟩ | ⟨r, hr, h1⟩
  · rw [h1]
    simp [expectChar_not_mem h]
  · rw [h1]
    simp
  · rw [h1]
    simp [expectChar_not_mem hr]

/-! ### Document validation lemmas -/

theorem validate_hosts_line_eq_nil {l : List Char} {n : Nat} {u : List Char}
    (hs : splitWs l = []) :
    validate_hosts_line l n u = .error (.missingField n l u) := by
  unfold validate_hosts_line
  rw [hs]

theorem validate_hosts_line_eq_single {l : List Char} {n : Nat} {u x : List Char}
    (hs : splitWs l = [x]) :
    validate_hosts_line l n u = .error (.missingField n l u) := by
  unfold validate_hosts_line
  rw [hs]

theorem validate_hosts_line_eq_cons {l : List Char} {n : Nat} {u ip d : List Char}
    {ds : List (List Char)} (hs : splitWs l = ip :: d :: ds) :
    validate_hosts_line l n u =
      if (!is_valid_ip ip) = true then .error (.invalidIp n ip u)
      else
        match (d :: ds).find? (fun x => !is_valid_domain x) with
        | some x => .error (.invalidDomain n x u)
        | none => .ok () := by
  unfold validate_hosts_line
  rw [hs]

theorem validate_hosts_line_ok_iff (l : List Char) (n : Nat) (u : List Char) :
    validate_hosts_line l n u = .ok () ↔
      (∃ ip d ds, splitWs l = ip :: d :: ds ∧ is_valid_ip ip = true ∧
        ∀ x ∈ d :: ds, is_valid_domain x = true) := by
  cases hs : splitWs l with
  | nil =>
    rw [validate_hosts_line_eq_nil hs]
    simp
  | cons ip rest =>
    cases rest with
    | nil =>
      rw [validate_hosts_line_eq_single hs]
      simp
    | cons d ds =>
      rw [validate_hosts_line_eq_cons hs]
      by_cases hip : is_valid_ip ip = true
      · rw [if_neg (by simp [hip])]
        cases hf : (d :: ds).find? (fun x => !is_valid_domain x) with
        | some dd =>
          constructor
          · intro hh
            exact absurd hh (by simp)
          · rintro ⟨ip2, d2, ds2, heq, _, hall⟩
            have h1 : dd ∈ d :: ds := List.mem_of_find?_eq_some hf
            have h2 := List.find?_some hf
            injection heq with e1 e2
            injection e2 with e3 e4
            subst e3 e4
            rw [hall dd h1] at h2
            simp at h2
        | none =>
          constructor
          · intro _
            refine ⟨ip, d, ds, rfl, hip, ?_⟩
            intro x hx
            have := List.find?_eq_none.mp hf x hx
            simpa using this
          · intro _
            rfl
      · rw [if_pos (by simp [hip])]
        constructor
        · intro hh
          exact absurd hh (by simp)
        · rintro ⟨ip2, d2, ds2, heq, hip2, _⟩
          injection heq with e1 e2
          subst e1
          exact absurd hip2 hip

theorem validate_hosts_line_ok_congr (l u : List Char) (n m : Nat) :
    validate_hosts_line l n u = .ok () ↔ validate_hosts_line l m u = .ok () := by
  rw [validate_hosts_line_ok_iff, validate_hosts_line_ok_iff]

theorem validate_hosts_line_error_carries {l : List Char} {n : Nat} {u : List Char}
    {e : HostsError} (h : validate_hosts_line l n u = .error e) :
    errLineNum e = some n ∧ errUrl e = u := by
  cases hs : splitWs l with
  | nil =>
    rw [validate_hosts_line_eq_nil hs] at h
    have he := Except.error.inj h
    rw [← he]
    exact ⟨rfl, rfl⟩
  | cons ip rest =>
    cases rest with
    | nil =>
      rw [validate_hosts_line_eq_single hs] at h
      have he := Except.error.inj h
      rw [← he]
      exact ⟨rfl, rfl⟩
    | cons d ds =>
      rw [validate_hosts_line_eq_cons hs] at h
      split at h
      · have he := Except.error.inj h
        rw [← he]
        exact ⟨rfl, rfl⟩
      · split at h
        · have he := Except.error.inj h
          rw [← he]
          exact ⟨rfl, rfl⟩
        · exact absurd h (by simp)

theorem validateLines_cons (u l : List Char) (ls : List (List Char)) (n : Nat) :
    validateLines u (l :: ls) n =
      if rustTrim l = [] then validateLines u ls (n + 1)
      else if (rustTrim l).head? = some '#' then validateLines u ls (n + 1)
      else
        match validate_hosts_line (rustTrim l) (n + 1) u with
        | .ok _ => validateLines u ls (n + 1)
        | .error e => .error e := rfl

/-- The predicate for one line being skipped or accepted (line number
irrelevant for acceptance). -/
def lineAccepted (u l : List Char) : Prop :=
  rustTrim l = [] ∨ (rustTrim l).head? = some '#' ∨
    validate_hosts_line (rustTrim l) 1 u = .ok ()

instance (u l : List Char) : Decidable (lineAccepted u l) := by
  unfold lineAccepted
  infer_instance

theorem validateLines_ok_iff (u : List Char) :
    ∀ (L : List (List Char)) (n : Nat),
    validateLines u L n = .ok () ↔ ∀ l ∈ L, lineAccepted u l := by
  intro L
  induction L with
  | nil => intro n; simp [validateLines]
  | cons l ls ih =>
    intro n
    rw [validateLines_cons]
    rw [List.forall_mem_cons]
    by_cases h1 : rustTrim l = []
    · rw [if_pos h1, ih]
      have : lineAccepted u l := Or.inl h1
      simp [this]
    · rw [if_neg h1]
      by_cases h2 : (rustTrim l).head? = some '#'
      · rw [if_pos h2, ih]
        have : lineAccepted u l := Or.inr (Or.inl h2)
        simp [this]
      · rw [if_neg h2]
        cases h3 : validate_hosts_line (rustTrim l) (n + 1) u with
        | ok a =>
          cases a
          simp only []
          rw [ih]
          have : lineAccepted u l :=
            Or.inr (Or.inr ((validate_hosts_line_ok_congr _ _ _ _).mp h3))
          simp [this]
        | error e =>
          simp only []
          constructor
          · intro hh
            exact absurd hh (by simp)
          · rintro ⟨hacc, _⟩
            rcases hacc with hx | hx | hx
            · exact absurd hx h1
            · exact absurd hx h2
            · rw [(validate_hosts_line_ok_congr _ _ 1 (n + 1)).mp hx] at h3
              exact absurd h3.symm (by simp)

theorem firstIllegalChar_cons (c : Char) (cs : List Char) (i : Nat) :
    firstIllegalChar (c :: cs) i =
      if badCtrl c = true then some i else firstIllegalChar cs (i + 1) := rfl

theorem firstIllegalChar_none_iff :
    ∀ (s : List Char) (i : Nat),
    firstIllegalChar s i = none ↔ ∀ c ∈ s, badCtrl c = false := by
  intro s
  induction s with
  | nil => intro i; simp [firstIllegalChar]
  | cons c cs ih =>
    intro i
    unfold firstIllegalChar
    by_cases hc : badCtrl c = true
    · rw [if_pos hc]
      simp [hc]
    · rw [if_neg hc]
      rw [ih]
      have hc2 : badCtrl c = false := Bool.eq_false_iff.mpr hc
      simp [hc2]

theorem firstIllegalChar_append :
    ∀ {a : List Char} {c : Char} (b : List Char) (i : Nat),
    (∀ x ∈ a, badCtrl x = false) → badCtrl c = true →
    firstIllegalChar (a ++ c :: b) i = some (i + a.length) := by
  intro a
  induction a with
  | nil =>
    intro c b i _ hc
    rw [List.nil_append, firstIllegalChar_cons, if_pos hc]
    simp
  | cons x xs ih =>
    intro c b i h hc
    have hx : badCtrl x = false := h x (by simp)
    rw [List.cons_append, firstIllegalChar_cons, if_neg (by simp [hx])]
    rw [ih b (i + 1) (fun y hy => h y (by simp [hy])) hc]
    simp only [List.length_cons]
    congr 1
    omega

theorem validate_hosts_content_ok_iff (content u : List Char) :
    validate_hosts_content content u = .ok () ↔
      (rustTrim content ≠ [] ∧ (∀ c ∈ content, badCtrl c = false) ∧
        ∀ l ∈ rustLines content, lineAccepted u l) := by
  unfold validate_hosts_content
  by_cases h1 : rustTrim content = []
  · rw [if_pos h1]
    simp [h1]
  · rw [if_neg h1]
    cases h2 : firstIllegalChar content 0 with
    | some i =>
      simp only []
      constructor
      · intro hh
        exact absurd hh (by simp)
      · rintro ⟨_, hctrl, _⟩
        rw [(firstIllegalChar_none_iff content 0).mpr hctrl] at h2
        exact absurd h2 (by simp)
    | none =>
      simp only []
      rw [validateLines_ok_iff]
      have hctrl := (firstIllegalChar_none_iff content 0).mp h2
      constructor
      · intro hh
        exact ⟨h1, hctrl, hh⟩
      · intro hh
        exact hh.2.2

theorem validateLines_first_err (u : List Char) :
    ∀ (P : List (List Char)) (l : List Char) (rest : List (List Char))
      (n : Nat) (e : HostsError),
    (∀ p ∈ P, lineAccepted u p) →
    ¬(rustTrim l = []) → ¬((rustTrim l).head? = some '#') →
    validate_hosts_line (rustTrim l) (n + P.length + 1) u = .error e →
    validateLines u (P ++ l :: rest) n = .error e := by
  intro P
  induction P with
  | nil =>
    intro l rest n e _ h1 h2 h3
    rw [List.nil_append, validateLines_cons, if_neg h1, if_neg h2]
    rw [show n + List.length [] + 1 = n + 1 by simp] at h3
    rw [h3]
  | cons p P ih =>
    intro l rest n e hP h1 h2 h3
    have hp := hP p (by simp)
    have harith : n + (p :: P).length + 1 = (n + 1) + P.length + 1 := by
      simp only [List.length_cons]
      omega
    rw [harith] at h3
    have htail : ∀ q ∈ P, lineAccepted u q := fun q hq => hP q (by simp [hq])
    rw [List.cons_append, validateLines_cons]
    by_cases hq : rustTrim p = []
    · rw [if_pos hq]
      exact ih l rest (n + 1) e htail h1 h2 h3
    · rw [if_neg hq]
      by_cases hr : (rustTrim p).head? = some '#'
      · rw [if_pos hr]
        exact ih l rest (n + 1) e htail h1 h2 h3
      · rw [if_neg hr]
        rcases hp with hp | hp | hp
        · exact absurd hp hq
        · exact absurd hp hr
        · rw [(validate_hosts_line_ok_congr _ _ 1 (n + 1)).mp hp]
          exact ih l rest (n + 1) e htail h1 h2 h3

/-! ## Claim theorems -/

/-- C1, counterexample: the merge is not a fixed point for every existing
content.  A stray end-marker line with no start marker is kept verbatim by
the first merge (nothing trims it because no start marker was found), but
the second merge deletes it, so the outputs differ. -/
theorem merge_not_fixed_point_cex :
    merge_hosts (merge_hosts ("# <<< hosts_updater_rs END <<<\nfoo bar".data)
        [] ("T".data)) [] ("T".data) ≠
      merge_hosts ("# <<< hosts_updater_rs END <<<\nfoo bar".data) [] ("T".data) := by
  decide

/-- C1 (amended): applying the merge a second time to its own output with the
same documents and timestamp yields byte-identical output, provided the
stripped-and-trimmed existing content contains no CRLF sequence and no line
trimming to a marker, and no line contributed by the timestamp, an origin, or
a trimmed document text trims to the end marker. -/
theorem merge_fixed_point (X : List Char) (docs : List (List Char × List Char))
    (t : List Char)
    (hcrlf : crlfFree (trimEnd (remove_auto_managed_section X)) = true)
    (hfree : ∀ l ∈ rustLines (trimEnd (remove_auto_managed_section X) ++ ['\n']),
      rustTrim l ≠ START_MARKER ∧ rustTrim l ≠ END_MARKER)
    (hsec : sectionEndFree docs t) :
    merge_hosts (merge_hosts X docs t) docs t = merge_hosts X docs t := by
  rw [merge_hosts_eq X docs t]
  by_cases hb : rustTrim (remove_auto_managed_section X) = []
  · rw [if_pos hb, merge_hosts_eq, strip_section_eq_nil hsec]
    exact if_pos rfl
  · rw [if_neg hb, merge_hosts_eq]
    have hte : trimEnd (trimEnd (remove_auto_managed_section X)) =
        trimEnd (remove_auto_managed_section X) := trimEnd_trimEnd _
    have hne : trimEnd (remove_auto_managed_section X) ≠ [] := by
      intro hh
      apply hb
      rw [← rustTrim_trimEnd (remove_auto_managed_section X), hh]
      rfl
    rw [strip_merge_append hcrlf hte hne hfree hsec]
    rw [if_neg (by rw [rustTrim_trimEnd]; exact hb)]
    rw [hte]

/-- C1 witness: the fixed point at a concrete clean input. -/
theorem merge_fixed_point_witness :
    merge_hosts (merge_hosts ("user line\n".data) [("u".data, "1.2.3.4 a.b".data)]
        ("2024".data)) [("u".data, "1.2.3.4 a.b".data)] ("2024".data) =
      merge_hosts ("user line\n".data) [("u".data, "1.2.3.4 a.b".data)] ("2024".data) :=
  merge_fixed_point _ _ _ (by decide) (by decide) (by decide)

/-- C4, counterexample: the stripped content kept from the input is exactly
the line "foo  " with trailing spaces, yet the output of strip is "foo": the
Rust function itself calls trim_end on its result (hosts.rs line 182),
contradicting the claim that trailing-whitespace trimming is performed only
by the caller. -/
theorem strip_trims_trailing_ws_cex :
    keptLines false (rustLines
        ("# >>> hosts_updater_rs START >>>\n# <<< hosts_updater_rs END <<<\nfoo  ".data)) =
      ["foo  ".data] ∧
    remove_auto_managed_section
        ("# >>> hosts_updater_rs START >>>\n# <<< hosts_updater_rs END <<<\nfoo  ".data) =
      "foo".data := by
  constructor <;> decide

/-- C4 (amended): if no line of the content trims to the start marker, strip
returns the content unchanged, including trailing whitespace; when a start
marker is found, strip itself trims the trailing whitespace of its output. -/
theorem strip_no_marker_id_and_trims (X : List Char) :
    ((∀ l ∈ rustLines X, rustTrim l ≠ START_MARKER) →
      remove_auto_managed_section X = X) ∧
    ((rustLines X).any (fun l => rustTrim l == START_MARKER) = true →
      trimEnd (remove_auto_managed_section X) = remove_auto_managed_section X) := by
  constructor
  · intro h
    apply strip_not_found
    rw [List.any_eq_false]
    intro l hl
    simp only [beq_iff_eq]
    exact h l hl
  · intro h
    rw [strip_found h]
    exact trimEnd_trimEnd _

/-- C4 witness: both parts of the amended claim at concrete inputs. -/
theorem strip_no_marker_id_and_trims_witness :
    remove_auto_managed_section ("nothing here  \n".data) = "nothing here  \n".data ∧
    trimEnd (remove_auto_managed_section ("# >>> hosts_updater_rs START >>>\nx".data)) =
      remove_auto_managed_section ("# >>> hosts_updater_rs START >>>\nx".data) :=
  ⟨(strip_no_marker_id_and_trims _).1 (by decide),
   (strip_no_marker_id_and_trims _).2 (by decide)⟩

set_option maxRecDepth 8000 in
/-- C2, counterexample: with a document whose text is itself a start-marker
line, the double-merge output contains two lines trimming to the start
marker, not exactly one: documents are rendered verbatim into the section. -/
theorem double_merge_markers_cex :
    startCount (merge_hosts (merge_hosts []
        [("u".data, "# >>> hosts_updater_rs START >>>".data)] ("T".data))
        [("u".data, "# >>> hosts_updater_rs START >>>".data)] ("T".data)) ≠ 1 := by
  decide

/-- C2 (amended): for every content string (with zero, one, several, or
unterminated marker pairs), the output of a double merge contains exactly
one line trimming to the start marker and exactly one trimming to the end
marker, provided no line rendered from the timestamp, an origin, or a
trimmed document text trims to a marker. -/
theorem double_merge_single_markers (content : List Char)
    (docs : List (List Char × List Char)) (t1 t2 : List Char)
    (h : sectionMarkerFree docs t2) :
    startCount (merge_hosts (merge_hosts content docs t1) docs t2) = 1 ∧
    endCount (merge_hosts (merge_hosts content docs t1) docs t2) = 1 := by
  have hfound := any_start_merge content docs t1
  rw [merge_hosts_eq (merge_hosts content docs t1) docs t2]
  by_cases hb : rustTrim (remove_auto_managed_section (merge_hosts content docs t1)) = []
  · rw [if_pos hb]
    unfold startCount endCount
    rw [rustLines_build_auto_section]
    exact sectionLines_counts h
  · rw [if_neg hb]
    unfold startCount endCount
    rw [rustLines_sep, rustLines_build_auto_section]
    have hfree1 : ∀ l ∈ rustLines
        (trimEnd (remove_auto_managed_section (merge_hosts content docs t1)) ++ ['\n']),
        rustTrim l ≠ START_MARKER ∧ rustTrim l ≠ END_MARKER := by
      rw [strip_found hfound, trimEnd_trimEnd]
      have hK : ∀ k ∈ keptLines false (rustLines (merge_hosts content docs t1)),
          '\n' ∉ k := fun k hk =>
        nl_not_mem_of_mem_rustLines (keptLines_subset _ _ k hk)
      intro l hl
      rcases relines_nl _ hK l hl with hnil | ⟨k, hk, ht⟩
      · constructor <;> (rw [hnil]; decide)
      · rw [ht]
        exact keptLines_marker_free false _ k hk
    constructor
    · rw [List.filter_append, filter_marker_nil (fun l hl => (hfree1 l hl).1),
        List.filter_cons,
        if_neg (by decide : ¬((rustTrim ([] : List Char) == START_MARKER) = true))]
      simpa using (sectionLines_counts h).1
    · rw [List.filter_append, filter_marker_nil (fun l hl => (hfree1 l hl).2),
        List.filter_cons,
        if_neg (by decide : ¬((rustTrim ([] : List Char) == END_MARKER) = true))]
      simpa using (sectionLines_counts h).2

/-- C2 witness: exactly one marker pair after a double merge over content
with a stray end marker. -/
theorem double_merge_single_markers_witness :
    startCount (merge_hosts (merge_hosts ("stray\n# <<< hosts_updater_rs END <<<\n".data)
        [("u".data, "1.2.3.4 a.b".data)] ("T1".data))
        [("u".data, "1.2.3.4 a.b".data)] ("T2".data)) = 1 ∧
    endCount (merge_hosts (merge_hosts ("stray\n# <<< hosts_updater_rs END <<<\n".data)
        [("u".data, "1.2.3.4 a.b".data)] ("T1".data))
        [("u".data, "1.2.3.4 a.b".data)] ("T2".data)) = 1 :=
  double_merge_single_markers _ _ _ _ (by decide)

/-- C3, counterexample: merge does alter bytes outside the marker lines
beyond trailing-whitespace trimming.  The input contains a carriage return
in user content before the managed region, the marker lines themselves
contain none, yet the merge output contains no carriage return at all:
`str::lines` drops the CR of every CRLF when the region is re-joined. -/
theorem merge_alters_outside_cr_cex :
    '\r' ∈ ("foo\r\nbar baz\n# >>> hosts_updater_rs START >>>\n# <<< hosts_updater_rs END <<<\n".data) ∧
    '\r' ∉ merge_hosts
      ("foo\r\nbar baz\n# >>> hosts_updater_rs START >>>\n# <<< hosts_updater_rs END <<<\n".data)
      [] ("T".data) ∧
    '\r' ∉ START_MARKER ∧ '\r' ∉ END_MARKER := by
  refine ⟨by decide, by decide, by decide, by decide⟩

/-- C3 (amended): frame preservation outside the markers, for CRLF-free
content whose lines outside the region are not marker lines: merging content
of the shape A ++ start-marker-line ++ M ++ end-marker-line ++ B keeps
A and B byte-for-byte, except that trailing whitespace immediately before
the rendered region is trimmed. -/
theorem merge_frame_preservation (A Mi B : List Char)
    (docs : List (List Char × List Char)) (t : List Char)
    (hA : A = [] ∨ A.getLast? = some '\n')
    (hAcrlf : crlfFree A = true)
    (hAfree : ∀ l ∈ rustLines A, rustTrim l ≠ START_MARKER ∧ rustTrim l ≠ END_MARKER)
    (hM : Mi = [] ∨ Mi.getLast? = some '\n')
    (hMfree : ∀ l ∈ rustLines Mi, rustTrim l ≠ END_MARKER)
    (hBcrlf : crlfFree B = true)
    (hBfree : ∀ l ∈ rustLines B, rustTrim l ≠ START_MARKER ∧ rustTrim l ≠ END_MARKER) :
    merge_hosts (A ++ (START_MARKER ++ '\n' :: (Mi ++ (END_MARKER ++ '\n' :: B))))
        docs t =
      if rustTrim (A ++ B) = [] then build_auto_section docs t
      else trimEnd (A ++ B) ++ '\n' :: '\n' :: build_auto_section docs t := by
  rw [merge_hosts_eq, strip_region_frame hA hAcrlf hAfree hM hMfree hBcrlf hBfree]
  simp only [rustTrim_trimEnd, trimEnd_trimEnd]

/-- C3 witness: frame preservation at a concrete input. -/
theorem merge_frame_preservation_witness :
    merge_hosts ("user1\n".data ++ (START_MARKER ++ '\n' ::
        ("1.1.1.1 old\n".data ++ (END_MARKER ++ '\n' :: "user2\n".data)))) [] ("T".data) =
      (if rustTrim ("user1\n".data ++ "user2\n".data) = [] then
        build_auto_section [] ("T".data)
      else trimEnd ("user1\n".data ++ "user2\n".data) ++ '\n' :: '\n' ::
        build_auto_section [] ("T".data)) :=
  merge_frame_preservation _ _ _ _ _ (by decide) (by decide) (by decide)
    (by decide) (by decide) (by decide) (by decide)

/-- C5, counterexample: the rendered section does not contain a literal
"# last updated: {timestamp}" line as shown in section 6 of the spec; the
code emits the Chinese literal "# 最后更新: {timestamp}" instead. -/
theorem render_last_updated_literal_cex :
    "# last updated: 2024".data ∉ rustLines (build_auto_section [] ("2024".data)) ∧
    "# 最后更新: 2024".data ∈ rustLines (build_auto_section [] ("2024".data)) := by
  constructor <;> decide

/-- C5 (amended): render format and order.  The section is exactly, in
order: the start marker line, the fixed ownership-disclaimer comment, the
last-updated comment (literal "# 最后更新: " followed by the timestamp), a
blank line, then for each document in exactly the caller-given order a
"# Source: {origin}" line followed by the raw text trimmed of leading and
trailing whitespace and a blank line, then the end marker line. -/
theorem build_auto_section_format (docs : List (List Char × List Char))
    (t : List Char) :
    build_auto_section docs t =
      START_MARKER ++ '\n' :: (disclaimerLine ++ '\n' ::
        (updatedLabel ++ t ++ '\n' :: '\n' ::
          ((docs.map fun p =>
              sourceLabel ++ p.1 ++ '\n' :: (rustTrim p.2 ++ '\n' :: '\n' :: [])).flatten
            ++ (END_MARKER ++ ['\n'])))) :=
  build_auto_section_eq docs t

/-- C7, counterexample: the Name validator is not an exact recogniser of the
ASCII label grammar.  The micro sign U+00B5 encodes to the UTF-8 bytes
194 and 181, both of which are alphanumeric when cast to a Latin-1 char, so
the code accepts the one-label domain consisting of that single character
while the grammar of the claim rejects it. -/
theorem domain_grammar_cex :
    is_valid_domain ("µ".data) = true ∧ specDomainGrammar ("µ".data) = false := by
  constructor <;> decide

/-- C7 (amended): restricted to ASCII tokens the iff of the claim holds: the
Name validator accepts exactly the tokens whose dot-separated labels match
[a-zA-Z0-9]([a-zA-Z0-9-]*[a-zA-Z0-9])? of length 1 to 63 with total length
at most 253.  On non-ASCII input the code checks the UTF-8 bytes as Latin-1
chars instead. -/
theorem is_valid_domain_ascii_iff (d : List Char) (h : ∀ c ∈ d, c.toNat < 128) :
    is_valid_domain d = specDomainGrammar d := by
  by_cases hnil : d = []
  · subst hnil; rfl
  · unfold is_valid_domain specDomainGrammar
    rw [if_neg hnil, strBytes_ascii h, List.length_map]
    by_cases hlen : d.length > 253
    · rw [if_pos hlen]
      have hd : decide (d.length ≤ 253) = false := by
        simp only [decide_eq_false_iff_not]
        omega
      rw [hd, Bool.false_and]
    · rw [if_neg hlen]
      have hd : decide (d.length ≤ 253) = true := by
        simp only [decide_eq_true_eq]
        omega
      rw [hd, Bool.true_and]
      apply all_congr_mem
      intro label hlabel
      exact domainLabelOk_ascii (fun c hc => h c (mem_of_mem_splitOnChar hlabel c hc))

/-- C7 witness: the grammar equivalence at a concrete ASCII domain. -/
theorem is_valid_domain_ascii_iff_witness :
    (∀ c ∈ ("my-server-123.example.com".data), c.toNat < 128) ∧
    is_valid_domain ("my-server-123.example.com".data) =
      specDomainGrammar ("my-server-123.example.com".data) :=
  ⟨by decide, is_valid_domain_ascii_iff _ (by decide)⟩

/-- C8, counterexample: the claim that any token with a non-numeric
dot-component is rejected fails: "::1.2.3.4" splits on dots into four
components whose first is non-numeric, yet `is_valid_ip` accepts it, because
the token parses as an IPv6 address with an embedded IPv4 tail. -/
theorem is_valid_ip_nonnumeric_cex :
    splitOnChar '.' ("::1.2.3.4".data) =
      ["::1".data, "2".data, "3".data, "4".data] ∧
    (∃ c ∈ "::1".data, isAsciiDigit c = false) ∧
    is_valid_ip ("::1.2.3.4".data) = true := by
  refine ⟨by decide, by decide, by decide⟩

/-- C8 (amended): the IPv4 characterisation holds for tokens that cannot be
IPv6 literals.  Every canonical dotted quad of octets 0-255 is accepted, and
every colon-free token with four dot-components of which one is empty,
non-numeric, or above 255 is rejected. -/
theorem is_valid_ip_dotted_quad :
    (∀ a b c d : List Char, canonOctet a → canonOctet b → canonOctet c →
      canonOctet d →
      is_valid_ip (a ++ '.' :: (b ++ '.' :: (c ++ '.' :: d))) = true) ∧
    (∀ t p1 p2 p3 p4 : List Char, ':' ∉ t →
      splitOnChar '.' t = [p1, p2, p3, p4] →
      badOctet p1 ∨ badOctet p2 ∨ badOctet p3 ∨ badOctet p4 →
      is_valid_ip t = false) := by
  constructor
  · intro a b c d ha hb hc hd
    have hp : parsesIpv4 (a ++ '.' :: (b ++ '.' :: (c ++ '.' :: d))) = true := by
      unfold parsesIpv4
      rw [readIpv4_canon ha hb hc hd]
      rfl
    unfold is_valid_ip
    rw [if_pos hp]
  · intro t p1 p2 p3 p4 hcolon hsplit hbad
    have hdot : isAsciiDigit '.' = false := by decide
    have hp4 : parsesIpv4 t = false := by
      unfold parsesIpv4
      rw [beq_eq_false_iff_ne]
      intro hsome
      obtain ⟨a, b, c, d, hs, ha, hb, hc, hd⟩ := readIpv4_some hsome
      simp only [List.append_nil] at hs
      have hna : '.' ∉ a := fun hm => by
        have h2 := ha.2.1 '.' hm
        rw [hdot] at h2
        exact Bool.false_ne_true h2
      have hnb : '.' ∉ b := fun hm => by
        have h2 := hb.2.1 '.' hm
        rw [hdot] at h2
        exact Bool.false_ne_true h2
      have hnc : '.' ∉ c := fun hm => by
        have h2 := hc.2.1 '.' hm
        rw [hdot] at h2
        exact Bool.false_ne_true h2
      have hnd : '.' ∉ d := fun hm => by
        have h2 := hd.2.1 '.' hm
        rw [hdot] at h2
        exact Bool.false_ne_true h2
      have hsplit2 : splitOnChar '.' t = [a, b, c, d] := by
        rw [hs, splitOnChar_append _ hna, splitOnChar_append _ hnb,
          splitOnChar_append _ hnc, splitOnChar_not_mem hnd]
      rw [hsplit] at hsplit2
      have hp1 : p1 = a := by injection hsplit2
      have hrest := hsplit2
      injection hrest with _ hrest
      injection hrest with hp2 hrest
      injection hrest with hp3 hrest
      injection hrest with hp4 _
      have hgood : ∀ (x : List Char), x ≠ [] →
          (∀ y ∈ x, isAsciiDigit y = true) → digitsVal x ≤ 255 → ¬badOctet x := by
        intro x h1 h2 h3 hbadx
        rcases hbadx with hx | ⟨y, hy, hy2⟩ | hx
        · exact h1 hx
        · rw [h2 y hy] at hy2
          simp at hy2
        · omega
      rcases hbad with hx | hx | hx | hx
      · exact hgood a ha.1 ha.2.1 ha.2.2 (hp1 ▸ hx)
      · exact hgood b hb.1 hb.2.1 hb.2.2 (hp2 ▸ hx)
      · exact hgood c hc.1 hc.2.1 hc.2.2 (hp3 ▸ hx)
      · exact hgood d hd.1 hd.2.1 hd.2.2 (hp4 ▸ hx)
    unfold is_valid_ip
    rw [if_neg (by rw [hp4]; exact Bool.false_ne_true)]
    by_cases hbr : t.head? = some '[' ∧ t.getLast? = some ']'
    · rw [if_pos hbr]
      unfold parsesIpv6
      rw [readIpv6_no_colon ?_]
      · rfl
      · intro hm
        exact hcolon ((List.drop_sublist 1 t).subset
          ((List.dropLast_sublist _).subset hm))
    · rw [if_neg hbr]
      unfold parsesIpv6
      rw [readIpv6_no_colon hcolon]
      rfl

/-- C8 witness: acceptance of a canonical quad and rejection of an
out-of-range octet, via the characterisation theorem. -/
theorem is_valid_ip_dotted_quad_witness :
    is_valid_ip ("127".data ++ '.' :: ("0".data ++ '.' :: ("0".data ++ '.' :: "1".data))) = true ∧
    is_valid_ip ("256.1.1.1".data) = false :=
  ⟨is_valid_ip_dotted_quad.1 ("127".data) ("0".data) ("0".data) ("1".data)
      (by decide) (by decide) (by decide) (by decide),
   is_valid_ip_dotted_quad.2 ("256.1.1.1".data) ("256".data) ("1".data)
      ("1".data) ("1".data) (by decide) (by decide) (by decide)⟩

/-- C9: strip is idempotent on every content string.  Once a managed region
has been removed, no remaining line trims to a marker, so a second strip is
the identity; files without a start marker are returned unchanged by both
applications. -/
theorem strip_idempotent (c : List Char) :
    remove_auto_managed_section (remove_auto_managed_section c) =
      remove_auto_managed_section c := by
  by_cases h : (rustLines c).any (fun l => rustTrim l == START_MARKER) = true
  · have hfree := strip_lines_marker_free h
    have hnot : (rustLines (remove_auto_managed_section c)).any
        (fun l => rustTrim l == START_MARKER) = false := by
      rw [List.any_eq_false]
      intro l hl
      simp only [beq_iff_eq]
      exact (hfree l hl).1
    exact strip_not_found hnot
  · have h2 : (rustLines c).any (fun l => rustTrim l == START_MARKER) = false :=
      Bool.eq_false_iff.mpr h
    rw [strip_not_found h2, strip_not_found h2]

/-- C6: document validation is all-or-nothing.  It accepts exactly when the
text is not empty or whitespace-only, contains no control character other
than newline, carriage return, or tab, and every non-blank, non-comment
logical line is a valid record; a whitespace-only text yields the
empty-document error; the first illegal control character is reported with
its character offset; and the first failing line aborts the whole document
with an error carrying its 1-based line number and the origin identifier. -/
theorem validate_document_characterization (content u : List Char) :
    (validate_hosts_content content u = .ok () ↔
      (rustTrim content ≠ [] ∧ (∀ c ∈ content, badCtrl c = false) ∧
        ∀ l ∈ rustLines content, lineAccepted u l)) ∧
    (rustTrim content = [] →
      validate_hosts_content content u = .error (.emptyDocument u)) ∧
    (∀ (a b : List Char) (c : Char),
      content = a ++ c :: b → rustTrim content ≠ [] →
      (∀ x ∈ a, badCtrl x = false) → badCtrl c = true →
      validate_hosts_content content u =
        .error (.illegalControlCharacter a.length u)) ∧
    (∀ (P : List (List Char)) (l : List Char) (rest : List (List Char))
        (e : HostsError),
      rustLines content = P ++ l :: rest →
      rustTrim content ≠ [] → (∀ x ∈ content, badCtrl x = false) →
      (∀ p ∈ P, lineAccepted u p) →
      rustTrim l ≠ [] → (rustTrim l).head? ≠ some '#' →
      validate_hosts_line (rustTrim l) (P.length + 1) u = .error e →
      validate_hosts_content content u = .error e ∧
        errLineNum e = some (P.length + 1) ∧ errUrl e = u) := by
  refine ⟨validate_hosts_content_ok_iff content u, ?_, ?_, ?_⟩
  · intro h
    unfold validate_hosts_content
    rw [if_pos h]
  · intro a b c hc hne ha hbad
    have hF : firstIllegalChar content 0 = some a.length := by
      rw [hc, firstIllegalChar_append b 0 ha hbad, Nat.zero_add]
    unfold validate_hosts_content
    rw [if_neg hne, hF]
  · intro P l rest e hlines hne hctrl hP h1 h2 herr
    have hfc : firstIllegalChar content 0 = none :=
      (firstIllegalChar_none_iff content 0).mpr hctrl
    have hv : validateLines u (rustLines content) 0 = .error e := by
      rw [hlines]
      exact validateLines_first_err u P l rest 0 e hP h1 h2
        (by rw [Nat.zero_add]; exact herr)
    refine ⟨?_, (validate_hosts_line_error_carries herr).1,
      (validate_hosts_line_error_carries herr).2⟩
    unfold validate_hosts_content
    rw [if_neg hne, hfc]
    exact hv

/-- C6 witness: a valid two-line document accepted, a whitespace-only
document rejected as empty, a NUL byte reported at character offset 19, and
a one-token line rejected with line number 1 and the origin carried. -/
theorem validate_document_characterization_witness :
    validate_hosts_content ("# c\n127.0.0.1 localhost".data) ("https://e".data) =
      .ok () ∧
    validate_hosts_content ("  \n ".data) ("https://e".data) =
      .error (.emptyDocument ("https://e".data)) ∧
    validate_hosts_content ("127.0.0.1 localhost\x00".data) ("https://e".data) =
      .error (.illegalControlCharacter 19 ("https://e".data)) ∧
    (validate_hosts_content ("127.0.0.1".data) ("https://e".data) =
      .error (.missingField 1 ("127.0.0.1".data) ("https://e".data)) ∧
     errLineNum (HostsError.missingField 1 ("127.0.0.1".data) ("https://e".data)) =
       some 1 ∧
     errUrl (HostsError.missingField 1 ("127.0.0.1".data) ("https://e".data)) =
       "https://e".data) := by
  refine ⟨?_, ?_, ?_, ?_⟩
  · exact (validate_document_characterization _ _).1.mpr
      ⟨by decide, by decide, by decide⟩
  · exact (validate_document_characterization _ _).2.1 (by decide)
  · have h := (validate_document_characterization
        ("127.0.0.1 localhost\x00".data) ("https://e".data)).2.2.1
        ("127.0.0.1 localhost".data) [] '\x00'
        (by decide) (by decide) (by decide) (by decide)
    have h19 : ("127.0.0.1 localhost".data).length = 19 := by decide
    rw [h19] at h
    exact h
  · exact (validate_document_characterization _ _).2.2.2 []
      ("127.0.0.1".data) []
      (.missingField 1 ("127.0.0.1".data) ("https://e".data))
      (by decide) (by decide) (by decide) (by decide) (by decide) (by decide)
      (by decide)

/-- C10: a document whose every line is blank or a comment validates
successfully, provided its text is not whitespace-only and contains no
illegal control character; and such a source document is rendered into the
managed section: its origin-and-text block appears inside the section built
from any list containing it. -/
theorem record_free_documents_accepted (c u : List Char)
    (docs : List (List Char × List Char)) (t : List Char)
    (pre post : List (List Char × List Char))
    (hne : rustTrim c ≠ []) (hctrl : ∀ x ∈ c, badCtrl x = false)
    (hlines : ∀ l ∈ rustLines c, rustTrim l = [] ∨ (rustTrim l).head? = some '#')
    (hdocs : docs = pre ++ (u, c) :: post) :
    validate_hosts_content c u = .ok () ∧
    ∃ before after,
      build_auto_section docs t = before ++ docBlock (u, c) ++ after := by
  constructor
  · rw [validate_hosts_content_ok_iff]
    exact ⟨hne, hctrl, fun l hl =>
      (hlines l hl).elim Or.inl (fun h => Or.inr (Or.inl h))⟩
  · refine ⟨(START_MARKER ++ '\n' ::
        (disclaimerLine ++ '\n' :: (updatedLabel ++ t ++ '\n' :: '\n' :: []))) ++
        (pre.map docBlock).flatten,
      (post.map docBlock).flatten ++ END_MARKER ++ ['\n'], ?_⟩
    simp only [build_auto_section]
    rw [foldl_docBlock, hdocs]
    simp [List.append_assoc]

/-- C10 witness: a comments-only document accepted and rendered into the
section built from a singleton source list. -/
theorem record_free_documents_accepted_witness :
    validate_hosts_content ("# only comments\n\n# more".data) ("u".data) = .ok () ∧
    ∃ before after,
      build_auto_section [("u".data, "# only comments\n\n# more".data)] ("T".data) =
        before ++ docBlock ("u".data, "# only comments\n\n# more".data) ++ after :=
  record_free_documents_accepted _ _ _ _ [] []
    (by decide) (by decide) (by decide) rfl

end HostsUpdater
